import Mathlib

/-!
Verification development for the TDS virtual-TA data-processing pipeline
(`data_processor.py`, with `clean_metadata` from `vector_store.py`).

Python text is modelled as `List Char` (`Txt`); JSON/metadata values as the
inductive `MValue`; Python dicts as insertion-ordered association lists with
update-in-place semantics (`Metadata`); Python floats as exact rationals
(`Rat`), with `round(x, 2)` modelled as banker's rounding to a multiple of
1/100; fallible Python code (uncaught exceptions) returns `Except String`.
The external `hashlib.md5(...).hexdigest()` is modelled as an arbitrary
function parameter `hash : Txt → Txt` threaded through the pipeline.
-/

namespace TDS

/-- Python strings are modelled as lists of characters. -/
abbrev Txt := List Char

/-- Embed a Lean string literal as a character list. -/
def str (s : String) : Txt := s.data

/-- The characters matched by the regex class `\s` (ASCII range; the inputs
this development evaluates on are ASCII). -/
def pyWS (c : Char) : Bool :=
  c = ' ' ∨ c = '\t' ∨ c = '\n' ∨ c = '\r' ∨ c = '\x0b' ∨ c = '\x0c'

/-- The characters matched by the regex class `\w` (ASCII range). -/
def pyWord (c : Char) : Bool := c.isAlphanum ∨ c = '_'

/-- Total length of a list of texts. -/
def sumLen (l : List Txt) : Nat := (l.map List.length).sum

/-- A metadata / JSON value as it occurs in this pipeline: strings, integers,
floats (modelled as rationals), booleans, lists of strings (the `tags`
field), and JSON null. -/
inductive MValue where
  | str (s : Txt)
  | int (n : Int)
  | float (q : Rat)
  | bool (b : Bool)
  | list (l : List Txt)
  | null
deriving DecidableEq

/-- A Python dict with string keys, as an insertion-ordered association
list; keys are unique in every dict this pipeline builds. -/
abbrev Metadata := List (String × MValue)

/-- `d.get(k)` / `d[k]`-style lookup: the first binding of `k`. -/
def mget (md : Metadata) (k : String) : Option MValue :=
  (md.find? (fun p => p.1 = k)).map (fun p => p.2)

/-- `d[k] = v`: replace the binding of `k` in place if present, else append
it (Python dicts preserve insertion order; every dict this pipeline builds
has unique keys). -/
def mset (md : Metadata) (k : String) (v : MValue) : Metadata :=
  match md with
  | [] => [(k, v)]
  | p :: rest => if p.1 = k then (k, v) :: rest else p :: mset rest k v

/-- Dict merge `{**a, **b}`: entries of `b` override / extend `a`. -/
def mmerge (a b : Metadata) : Metadata :=
  b.foldl (fun m p => mset m p.1 p.2) a

/-- Python truthiness of a metadata value. -/
def truthy : MValue → Bool
  | .str s => s ≠ []
  | .int n => n ≠ 0
  | .float q => q ≠ 0
  | .bool b => b
  | .list l => l ≠ []
  | .null => false

/-- Truthiness of `d.get(k)` (absent key → `None` → falsy). -/
def otruthy (o : Option MValue) : Bool := (o.map truthy).getD false

/-- A langchain `Document`: chunk text plus its metadata record. -/
structure Document where
  page_content : Txt
  metadata : Metadata
deriving DecidableEq

instance : Inhabited Document := ⟨⟨[], []⟩⟩

instance {ε α : Type} [DecidableEq ε] [DecidableEq α] : DecidableEq (Except ε α) :=
  fun a b =>
    match a, b with
    | .ok x, .ok y =>
        if h : x = y then .isTrue (by rw [h]) else .isFalse (by simp [h])
    | .error e, .error f =>
        if h : e = f then .isTrue (by rw [h]) else .isFalse (by simp [h])
    | .ok _, .error _ => .isFalse (by simp)
    | .error _, .ok _ => .isFalse (by simp)

theorem mget_mset_self (md : Metadata) (k : String) (v : MValue) :
    mget (mset md k v) k = some v := by
  induction md with
  | nil => simp [mget, mset, List.find?]
  | cons q md ih =>
    by_cases hq : q.1 = k
    · simp [mget, mset, hq, List.find?]
    · simpa [mget, mset, hq, List.find?] using ih

theorem mget_mset_ne (md : Metadata) (k k' : String) (v : MValue) (h : k ≠ k') :
    mget (mset md k v) k' = mget md k' := by
  induction md with
  | nil => simp [mget, mset, List.find?, h]
  | cons q md ih =>
    by_cases hq : q.1 = k
    · by_cases hq' : q.1 = k'
      · exact absurd (hq ▸ hq') h
      · simp [mget, mset, hq, hq', List.find?, h, hq ▸ h]
    · by_cases hq' : q.1 = k'
      · simp [mget, mset, hq, hq', List.find?, Ne.symm h]
      · simpa [mget, mset, hq, hq', List.find?] using ih

/-- Scanning worker for `splitOnce`, accumulating the text before the match
in reverse. -/
def splitOnceAux (sep : Txt) : Txt → Txt → Option (Txt × Txt)
  | _, [] => none
  | acc, a :: t =>
      if sep.isPrefixOf (a :: t) then some (acc.reverse, (a :: t).drop sep.length)
      else splitOnceAux sep (a :: acc) t

/-- Split at the first occurrence of `sep`: `splitOnce sep t = some (pre, post)`
iff `t = pre ++ sep ++ post` with `pre` minimal. -/
def splitOnce (sep : Txt) (t : Txt) : Option (Txt × Txt) :=
  if sep = [] then some ([], t) else splitOnceAux sep [] t


theorem length_dropWhile_le' (p : Char → Bool) (l : Txt) :
    (l.dropWhile p).length ≤ l.length := by
  induction l with
  | nil => simp
  | cons x xs ih =>
    by_cases hp : p x
    · simp only [List.dropWhile_cons, hp, if_true, List.length_cons]
      omega
    · simp [List.dropWhile_cons, hp]

theorem length_takeWhile_le' (p : Char → Bool) (l : Txt) :
    (l.takeWhile p).length ≤ l.length := by
  induction l with
  | nil => simp
  | cons x xs ih =>
    by_cases hp : p x
    · simp only [List.takeWhile_cons, hp, if_true, List.length_cons]
      omega
    · simp [List.takeWhile_cons, hp]

/-- Split `t` at every occurrence of the (nonempty) separator `c :: cs`,
keeping the separator text attached to the end of the preceding piece, so
that the pieces concatenate back to `t`. The fuel argument only bounds the
recursion depth; `t.length + 1` always suffices since every found
occurrence strictly shortens the remainder. -/
def splitRetainF (fuel : Nat) (c : Char) (cs : Txt) (t : Txt) : List Txt :=
  match fuel with
  | 0 => [t]
  | fuel + 1 =>
      match splitOnce (c :: cs) t with
      | none => [t]
      | some (pre, post) => (pre ++ (c :: cs)) :: splitRetainF fuel c cs post

def splitRetain (c : Char) (cs : Txt) (t : Txt) : List Txt :=
  splitRetainF (t.length + 1) c cs t

mutual

/-- Modelled from the spec: `BeautifulSoup(text, "html.parser").get_text()`
(external library, not part of this repository): "Strip all markup tags,
keeping only text content". Text from `<` through the next `>` is removed;
an unterminated `<` swallows the rest. Entity decoding and other HTML
details are outside the modelled scope (no input evaluated in this file
contains markup). -/
def stripTags : Txt → Txt
  | [] => []
  | c :: cs => if c = '<' then stripTagsIn cs else c :: stripTags cs

/-- Inside a markup tag: skip up to and including the closing `>`. -/
def stripTagsIn : Txt → Txt
  | [] => []
  | c :: cs => if c = '>' then stripTags cs else stripTagsIn cs

end

/-- Match the tail of `[quote=.*?].*?[/quote]\s*` starting just after a
matched `"[quote="`: lazily find `]`, then lazily find `[/quote]`, then
greedily consume the following whitespace run. Returns the rest of the text
and whether the character preceding the next scan position is a newline
(for the `MULTILINE` `^` anchor). -/
def quoteMatchEnd (t : Txt) : Option (Txt × Bool) :=
  match splitOnce [']'] t with
  | none => none
  | some (_, r1) =>
    match splitOnce (str "[/quote]") r1 with
    | none => none
    | some (_, r2) =>
      let ws := r2.takeWhile pyWS
      some (r2.drop ws.length, ws.getLast? = some '\n')

/-- The scan of `discourse_quote_re.sub('', text)`: remove each
`[quote=...]...[/quote]` block (regex `^\[quote=.*?\].*?\[\/quote\]\s*`,
DOTALL and MULTILINE) whose opening bracket stands at the start of the
text or just after a newline. The fuel argument only bounds the recursion
depth; `t.length + 1` always suffices since every step strictly shortens
the remaining text. -/
def quoteSubF (fuel : Nat) (atLS : Bool) (t : Txt) : Txt :=
  match fuel with
  | 0 => t
  | fuel + 1 =>
      match t with
      | [] => []
      | c :: cs =>
          if atLS ∧ (str "[quote=").isPrefixOf (c :: cs) then
            match quoteMatchEnd ((c :: cs).drop 7) with
            | some (rest, nl) => quoteSubF fuel nl rest
            | none => c :: quoteSubF fuel (c = '\n') cs
          else c :: quoteSubF fuel (c = '\n') cs

def quoteSub (t : Txt) : Txt := quoteSubF (t.length + 1) true t

/-- The scan of `mention_re.sub('', text)`: remove each `@\w+\b` token (an
`@` followed by a maximal nonempty word-character run); the flag records
whether the scanner is inside a word run being skipped. -/
def mentionAux (skipping : Bool) : Txt → Txt
  | [] => []
  | c :: cs =>
      if skipping ∧ pyWord c then mentionAux true cs
      else if c = '@' ∧ ((cs.head?.map pyWord).getD false) then mentionAux true cs
      else c :: mentionAux false cs

def mentionSub (t : Txt) : Txt := mentionAux false t

/-- The scan of `code_block_re.sub('[code]', text)`: replace each fenced
block (regex `` ```.*?``` ``, DOTALL) by the literal placeholder `[code]`;
an opening fence with no closing fence stays as it is. The fuel argument
only bounds the recursion depth; `t.length + 1` always suffices. -/
def codeBlockSubF (fuel : Nat) (t : Txt) : Txt :=
  match fuel with
  | 0 => t
  | fuel + 1 =>
      match t with
      | [] => []
      | c :: cs =>
          if (str "```").isPrefixOf (c :: cs) then
            match splitOnce (str "```") ((c :: cs).drop 3) with
            | some (_, post) => str "[code]" ++ codeBlockSubF fuel post
            | none => c :: codeBlockSubF fuel cs
          else c :: codeBlockSubF fuel cs

def codeBlockSub (t : Txt) : Txt := codeBlockSubF (t.length + 1) t

/-- The length of the URL-opening marker matched at the current position:
`https://`, `http://` or `www.` (the alternation of
`https?://\S+|www\.\S+`). -/
def schemeLen (t : Txt) : Option Nat :=
  if (str "https://").isPrefixOf t then some 8
  else if (str "http://").isPrefixOf t then some 7
  else if (str "www.").isPrefixOf t then some 4
  else none

/-- The scan of `url_re.sub('', text)`: remove each match of
`https?://\S+|www\.\S+` (a scheme or `www.` marker followed by a nonempty
run of non-whitespace). The fuel argument only bounds the recursion depth;
`t.length + 1` always suffices. -/
def urlSubF (fuel : Nat) (t : Txt) : Txt :=
  match fuel with
  | 0 => t
  | fuel + 1 =>
      match t with
      | [] => []
      | c :: cs =>
          match schemeLen (c :: cs) with
          | some k =>
              if ((c :: cs).drop k).takeWhile (fun x => !pyWS x) ≠ [] then
                urlSubF fuel (((c :: cs).drop k).dropWhile (fun x => !pyWS x))
              else c :: urlSubF fuel cs
          | none => c :: urlSubF fuel cs

def urlSub (t : Txt) : Txt := urlSubF (t.length + 1) t

mutual

/-- The scan of `whitespace_re.sub(' ', text)`: collapse each maximal
nonempty whitespace run to a single space. -/
def wsSub : Txt → Txt
  | [] => []
  | c :: cs => if pyWS c then ' ' :: wsSkip cs else c :: wsSub cs

/-- Inside a whitespace run already replaced by a single space: skip the
rest of the run. -/
def wsSkip : Txt → Txt
  | [] => []
  | c :: cs => if pyWS c then wsSkip cs else c :: wsSub cs

end

/-- The scan of `empty_line_re.sub('\n\n', text)` (regex `\n\s*\n`): a
newline whose following whitespace run contains another newline is
collapsed, together with that run up to its last newline, into exactly one
blank line. The fuel argument only bounds the recursion depth;
`t.length + 1` always suffices. -/
def emptyLineSubF (fuel : Nat) (t : Txt) : Txt :=
  match fuel with
  | 0 => t
  | fuel + 1 =>
      match t with
      | [] => []
      | c :: cs =>
          if c = '\n' ∧ '\n' ∈ cs.takeWhile pyWS then
            '\n' :: '\n' :: emptyLineSubF fuel
              (cs.drop ((cs.takeWhile pyWS).length -
                ((cs.takeWhile pyWS).reverse.takeWhile (fun x => x ≠ '\n')).length))
          else c :: emptyLineSubF fuel cs

def emptyLineSub (t : Txt) : Txt := emptyLineSubF (t.length + 1) t

/-- Python `str.strip()`. -/
def pyStrip (t : Txt) : Txt :=
  ((t.dropWhile pyWS).reverse.dropWhile pyWS).reverse

/-- `TDSDataProcessor.clean_text` (data_processor.py lines 78-97): empty
input short-circuits; HTML markup is stripped; for Discourse text, quote
blocks and mentions are removed and fenced code blocks become `[code]`;
then URLs are removed, whitespace runs collapse to single spaces,
blank-line runs collapse (a dead step at this point, as no newline
survives the whitespace collapse), and the ends are stripped. -/
def cleanText (t : Txt) (isDiscourse : Bool) : Txt :=
  if t = [] then []
  else
    let t1 := stripTags t
    let t2 := if isDiscourse then codeBlockSub (mentionSub (quoteSub t1)) else t1
    let t3 := urlSub t2
    let t4 := wsSub t3
    let t5 := emptyLineSub t4
    pyStrip t5

/-- Modelled from the spec: langchain's `RecursiveCharacterTextSplitter`
(external library, not part of this repository), configured in
`TDSDataProcessor.__init__` with `chunk_size=1200`, `chunk_overlap=200`,
`length_function=len`, `separators=["\n\n", "\n", " ", ""]` (spec §4.2):
recursively split text into units by trying the separators in order —
paragraph, line, word, character — keeping each separator attached to the
end of the preceding piece, until every unit fits the size budget (the
empty separator splits into single characters). -/
def units (size : Nat) (seps : List Txt) (t : Txt) : List Txt :=
  match seps with
  | [] => [t]
  | sep :: rest =>
      let parts := match sep with
        | [] => t.map (fun c => [c])
        | c :: cs => splitRetain c cs t
      (parts.map (fun p => if p.length ≤ size then [p] else units size rest p)).join

/-- Modelled from the spec / langchain `_merge_splits`: after a chunk is
emitted, units are dropped from the front of the pending chunk while the
pending total exceeds the configured overlap, or would overflow the size
budget together with the incoming unit of length `ulen`; what remains is
carried into the next chunk as overlap. -/
def popWhile (size overlap ulen : Nat) (acc : List Txt) : List Txt :=
  match acc with
  | [] => []
  | u :: rest =>
      if overlap < sumLen (u :: rest) ∨
          (size < sumLen (u :: rest) + ulen ∧ 0 < sumLen (u :: rest)) then
        popWhile size overlap ulen rest
      else u :: rest

/-- Modelled from the spec / langchain `_merge_splits`: greedily pack units
into chunks of at most `size` characters, carrying an overlap suffix (via
`popWhile`) from each emitted chunk into the next; a chunk is emitted only
if its text is nonempty. Chunks are represented as their unit lists. -/
def mergeAux (size overlap : Nat) (us : List Txt) (acc : List Txt) : List (List Txt) :=
  match us with
  | [] => if acc.join = [] then [] else [acc]
  | u :: rest =>
      if size < sumLen acc + u.length ∧ acc ≠ [] then
        let acc' := popWhile size overlap u.length acc
        let cont := mergeAux size overlap rest (acc' ++ [u])
        if acc.join = [] then cont else acc :: cont
      else mergeAux size overlap rest (acc ++ [u])

/-- The separator preference order configured in `TDSDataProcessor.__init__`. -/
def defaultSeps : List Txt := [str "\n\n", str "\n", str " ", []]

/-- The configured splitter's output, as unit lists. -/
def chunkUnits (t : Txt) : List (List Txt) :=
  mergeAux 1200 200 (units 1200 defaultSeps t) []

/-- `markdown_splitter.split_text` for the configured splitter. -/
def splitText (t : Txt) : List Txt := (chunkUnits t).map List.join

/-- Split text into its lines (separating newlines dropped). -/
def splitLines : Txt → List Txt
  | [] => [[]]
  | c :: cs =>
      match splitLines cs with
      | [] => [[]]
      | l :: ls => if c = '\n' then [] :: l :: ls else (c :: l) :: ls

/-- Rejoin lines with newlines. -/
def joinLines : List Txt → Txt
  | [] => []
  | [l] => l
  | l :: rest => l ++ '\n' :: joinLines rest

/-- Recognize a markdown heading line of level 1-4 (`#`-run plus a space),
returning the level and the stripped heading text. -/
def headingOf (line : Txt) : Option (Nat × Txt) :=
  let k := (line.takeWhile (fun c => c = '#')).length
  if 1 ≤ k ∧ k ≤ 4 ∧ (line.drop k).head? = some ' ' then
    some (k, pyStrip (line.drop (k + 1)))
  else none

/-- Header metadata (`Header 1` … `Header 4`) for the active heading path. -/
def hdrsToMeta (hdrs : List (Nat × Txt)) : Metadata :=
  hdrs.map (fun p => ("Header " ++ toString p.1, MValue.str p.2))

/-- Modelled from the spec: langchain's `MarkdownHeaderTextSplitter`
(external library, not part of this repository) configured for heading
levels 1-4: partition the text at markdown heading lines, attaching the
heading text of each ancestor level as `Header i` metadata on each
segment; heading lines do not appear in segment bodies, a new heading of
level `k` closes deeper or equal levels, and empty segments are dropped. -/
def headerSplitAux : List Txt → List (Nat × Txt) → List Txt → List (Txt × Metadata)
  | [], hdrs, body =>
      let seg := joinLines body
      if seg = [] then [] else [(seg, hdrsToMeta hdrs)]
  | line :: rest, hdrs, body =>
      match headingOf line with
      | some (k, title) =>
          let seg := joinLines body
          let out := if seg = [] then [] else [(seg, hdrsToMeta hdrs)]
          out ++ headerSplitAux rest (hdrs.filter (fun p => p.1 < k) ++ [(k, title)]) []
      | none => headerSplitAux rest hdrs (body ++ [line])

/-- `header_splitter.split_text` for the configured header splitter. -/
def headerSplit (t : Txt) : List (Txt × Metadata) := headerSplitAux (splitLines t) [] []

/-- A naive `datetime.datetime` value. -/
structure PyDateTime where
  year : Nat
  month : Nat
  day : Nat
  hour : Nat
  minute : Nat
  second : Nat
  usec : Nat
deriving DecidableEq

/-- Mixed-radix key realizing the lexicographic comparison of naive
datetimes (all fields are range-validated at construction). -/
def dtKey (d : PyDateTime) : Nat :=
  (((((d.year * 100 + d.month) * 100 + d.day) * 100 + d.hour) * 100 +
    d.minute) * 100 + d.second) * 1000000 + d.usec

/-- `datetime <= datetime` on naive values. -/
def dtLe (a b : PyDateTime) : Bool := dtKey a ≤ dtKey b

/-- Numeric value of a decimal digit character. -/
def digitVal (c : Char) : Nat := c.toNat - 48

/-- Parse exactly `n` decimal digits. -/
def parseDigits (n : Nat) (t : Txt) : Option (Nat × Txt) :=
  let ds := t.take n
  if ds.length = n ∧ ds.all Char.isDigit then
    some (ds.foldl (fun acc c => acc * 10 + digitVal c) 0, t.drop n)
  else none

/-- Parse one or two decimal digits (CPython strptime numeric directives
match one or two digits; out-of-range values are rejected by the datetime
constructor's validation below, giving the same accept/reject behavior). -/
def parse12 (t : Txt) : Option (Nat × Txt) :=
  match t with
  | [] => none
  | [c1] => if c1.isDigit then some (digitVal c1, []) else none
  | c1 :: c2 :: rest =>
      if c1.isDigit then
        if c2.isDigit then some (digitVal c1 * 10 + digitVal c2, rest)
        else some (digitVal c1, c2 :: rest)
      else none

/-- Parse the `%f` directive: one to six digits, zero-padded on the right
to microseconds. -/
def parseFrac (t : Txt) : Option (Nat × Txt) :=
  let ds := (t.takeWhile Char.isDigit).take 6
  if ds = [] then none
  else
    some ((ds.foldl (fun acc c => acc * 10 + digitVal c) 0) * 10 ^ (6 - ds.length),
      t.drop ds.length)

/-- Match one literal character. -/
def lit (c : Char) (t : Txt) : Option Txt :=
  match t with
  | [] => none
  | x :: r => if x = c then some r else none

/-- Gregorian leap year. -/
def isLeap (y : Nat) : Bool := (y % 4 = 0 ∧ y % 100 ≠ 0) ∨ y % 400 = 0

/-- Days in a month. -/
def daysInMonth (y mo : Nat) : Nat :=
  if mo = 2 then (if isLeap y then 29 else 28)
  else if mo = 4 ∨ mo = 6 ∨ mo = 9 ∨ mo = 11 then 30
  else 31

/-- The `datetime` constructor's range validation. -/
def mkDateTime (y mo d h mi s us : Nat) : Option PyDateTime :=
  if 1 ≤ y ∧ y ≤ 9999 ∧ 1 ≤ mo ∧ mo ≤ 12 ∧ 1 ≤ d ∧ d ≤ daysInMonth y mo ∧
      h ≤ 23 ∧ mi ≤ 59 ∧ s ≤ 59 ∧ us ≤ 999999 then
    some ⟨y, mo, d, h, mi, s, us⟩
  else none

/-- Modelled CPython `datetime.strptime(s, "%Y-%m-%dT%H:%M:%S.%fZ")`
(standard library, not part of this repository): `%Y` is exactly four
digits, the other numeric directives one or two, the whole string must be
consumed, and field ranges are validated. -/
def strptimeFrac (t : Txt) : Option PyDateTime := do
  let (y, r) ← parseDigits 4 t
  let r ← lit '-' r
  let (mo, r) ← parse12 r
  let r ← lit '-' r
  let (d, r) ← parse12 r
  let r ← lit 'T' r
  let (h, r) ← parse12 r
  let r ← lit ':' r
  let (mi, r) ← parse12 r
  let r ← lit ':' r
  let (s, r) ← parse12 r
  let r ← lit '.' r
  let (us, r) ← parseFrac r
  let r ← lit 'Z' r
  if r = [] then mkDateTime y mo d h mi s us else none

/-- Modelled CPython `datetime.strptime(s, "%Y-%m-%dT%H:%M:%SZ")`. -/
def strptimeNoFrac (t : Txt) : Option PyDateTime := do
  let (y, r) ← parseDigits 4 t
  let r ← lit '-' r
  let (mo, r) ← parse12 r
  let r ← lit '-' r
  let (d, r) ← parse12 r
  let r ← lit 'T' r
  let (h, r) ← parse12 r
  let r ← lit ':' r
  let (mi, r) ← parse12 r
  let r ← lit ':' r
  let (s, r) ← parse12 r
  let r ← lit 'Z' r
  if r = [] then mkDateTime y mo d h mi s 0 else none

/-- The two accepted `created_at` formats, tried in the order of
`filter_by_date` (lines 223-235): with fractional seconds first, then
without. -/
def parseTwoFormats (t : Txt) : Option PyDateTime :=
  match strptimeFrac t with
  | some d => some d
  | none => strptimeNoFrac t

/-- Modelled CPython `datetime.fromisoformat` (standard library, not part
of this repository), for the shapes the pipeline's date bounds take:
`YYYY-MM-DD`, optionally followed by one separator character and
`HH:MM:SS` with an optional 3- or 6-digit fraction (zero-padded two-digit
fields; no timezone suffix is accepted). -/
def fromIso (t : Txt) : Option PyDateTime := do
  let (y, r) ← parseDigits 4 t
  let r ← lit '-' r
  let (mo, r) ← parseDigits 2 r
  let r ← lit '-' r
  let (d, r) ← parseDigits 2 r
  match r with
  | [] => mkDateTime y mo d 0 0 0 0
  | _ :: r2 => do
      let (h, r3) ← parseDigits 2 r2
      let r3 ← lit ':' r3
      let (mi, r3) ← parseDigits 2 r3
      let r3 ← lit ':' r3
      let (s, r3) ← parseDigits 2 r3
      match r3 with
      | [] => mkDateTime y mo d h mi s 0
      | dot :: r4 =>
          if dot = '.' then
            if r4.length = 3 ∧ r4.all Char.isDigit then
              mkDateTime y mo d h mi s
                ((r4.foldl (fun acc c => acc * 10 + digitVal c) 0) * 1000)
            else if r4.length = 6 ∧ r4.all Char.isDigit then
              mkDateTime y mo d h mi s (r4.foldl (fun acc c => acc * 10 + digitVal c) 0)
            else none
          else none

/-- Banker's rounding of a rational to the nearest integer: models Python
`round` on the exact decimal values arising in this pipeline. -/
def roundHalfEven (q : Rat) : Int :=
  if q - ⌊q⌋ < 1/2 then ⌊q⌋
  else if (1:Rat)/2 < q - ⌊q⌋ then ⌊q⌋ + 1
  else if ⌊q⌋ % 2 = 0 then ⌊q⌋ else ⌊q⌋ + 1

/-- Python `round(x, 2)` on the model's exact rationals. -/
def round2 (q : Rat) : Rat := (roundHalfEven (q * 100) : Rat) / 100

/-- The base quality score before like/reply contributions
(data_processor.py lines 192-194). -/
def baseScore (accepted : Bool) : Rat := 0.5 + (if accepted then 0.3 else 0)

/-- The Discourse quality-score formula (lines 192-197), before rounding. -/
def discourseScoreRaw (accepted : Bool) (likes replies : Rat) : Rat :=
  baseScore accepted + min 0.2 (likes / 50) + min 0.1 (replies / 20)

/-- Modelled CPython `urllib.parse.urlparse(u).netloc` (standard library,
not part of this repository): the text after `"://"` (or a leading `"//"`)
up to the first `/`, `?` or `#`; empty when the URL has no network
location. -/
def urlNetloc (u : Txt) : Txt :=
  match splitOnce (str "://") u with
  | some (_, rest) => rest.takeWhile (fun c => c ≠ '/' ∧ c ≠ '?' ∧ c ≠ '#')
  | none =>
      if (str "//").isPrefixOf u then
        (u.drop 2).takeWhile (fun c => c ≠ '/' ∧ c ≠ '?' ∧ c ≠ '#')
      else []

/-- Using a metadata value as a number (Python int/float/bool); any other
type raises `TypeError` in arithmetic or comparisons. -/
def asNum : MValue → Except String Rat
  | .int n => .ok n
  | .float q => .ok q
  | .bool b => .ok (if b then 1 else 0)
  | _ => .error "TypeError: unsupported operand type"

/-- `'[code]' in doc.page_content.lower()` (line 200). -/
def hasCode (t : Txt) : Bool := (splitOnce (str "[code]") (t.map Char.toLower)).isSome

/-- The domain-extraction step of `enhance_metadata` (lines 182-184):
`urlparse` of a non-string `url` value raises. -/
def domainStep (md : Metadata) : Except String Metadata :=
  match mget md "url" with
  | none => .ok md
  | some (.str u) => .ok (mset md "domain" (.str (urlNetloc u)))
  | some _ => .error "TypeError: urlparse"

/-- `TDSDataProcessor.enhance_metadata`, per document (lines 180-203):
domain extraction; for course-content documents the fixed score 1.0 and
content type `course_material`; for all other documents the Discourse
quality score and the `[code]`-based content-type classification using the
document's `post_type`. Bracket access to a missing `source` or
`post_type` key raises. -/
def enhanceDoc (doc : Document) : Except String Document :=
  match domainStep doc.metadata with
  | .error e => .error e
  | .ok md1 =>
      match mget md1 "source" with
      | none => .error "KeyError: source"
      | some src =>
          if src = .str (str "course_content") then
            .ok ⟨doc.page_content,
              mset (mset md1 "quality_score" (.float 1))
                "content_type" (.str (str "course_material"))⟩
          else
            match asNum ((mget md1 "like_count").getD (.int 0)) with
            | .error e => .error e
            | .ok likes =>
                match asNum ((mget md1 "reply_count").getD (.int 0)) with
                | .error e => .error e
                | .ok replies =>
                    match mget (mset md1 "quality_score" (.float (round2
                        (discourseScoreRaw (otruthy (mget md1 "is_accepted_answer"))
                          likes replies)))) "post_type" with
                    | none => .error "KeyError: post_type"
                    | some (.str pt) =>
                        .ok ⟨doc.page_content,
                          mset (mset md1 "quality_score" (.float (round2
                            (discourseScoreRaw (otruthy (mget md1 "is_accepted_answer"))
                              likes replies))))
                            "content_type"
                            (.str ((if hasCode doc.page_content then str "code_"
                              else str "text_") ++ pt))⟩
                    | some _ => .error "TypeError: can only concatenate str"

/-- The loop of `enhance_metadata` over the document list. -/
def enhanceDocs : List Document → Except String (List Document)
  | [] => .ok []
  | d :: ds =>
      match enhanceDoc d with
      | .error e => .error e
      | .ok d2 =>
          match enhanceDocs ds with
          | .error e => .error e
          | .ok ds2 => .ok (d2 :: ds2)

/-- The content extraction and cleaning for one Discourse post (line 147):
`clean_text(post.get('content', ''), is_discourse=True)`; a truthy
non-string content value makes `BeautifulSoup` raise, a falsy one cleans
to the empty string. -/
def postCleanContent (post : Metadata) : Except String Txt :=
  match (mget post "content").getD (.str []) with
  | .str s => .ok (cleanText s true)
  | v => if truthy v then .error "TypeError: BeautifulSoup" else .ok []

/-- The metadata dict literal of `process_discourse_posts` (lines 152-167);
`doc_id` is the hash of the full cleaned post content. -/
def postMeta (hash : Txt → Txt) (post : Metadata) (content : Txt) : Metadata :=
  [("source", .str (str "discourse")),
   ("url", (mget post "url").getD (.str [])),
   ("author", (mget post "author").getD (.str (str "Anonymous"))),
   ("created_at", (mget post "created_at").getD (.str [])),
   ("updated_at", (mget post "updated_at").getD (.str [])),
   ("topic_id", (mget post "topic_id").getD (.str [])),
   ("post_id", (mget post "post_id").getD (.str [])),
   ("topic_title", (mget post "topic_title").getD (.str [])),
   ("is_accepted_answer", (mget post "is_accepted_answer").getD (.bool false)),
   ("reply_count", (mget post "reply_count").getD (.int 0)),
   ("like_count", (mget post "like_count").getD (.int 0)),
   ("tags", (mget post "tags").getD (.list [])),
   ("post_type", .str (str (if otruthy (mget post "is_reply") then "answer" else "question"))),
   ("doc_id", .str (hash content))]

/-- The per-post body of the `process_discourse_posts` loop (lines
146-175): posts whose cleaned content is shorter than 25 characters are
skipped; otherwise the cleaned content is split into chunks that all carry
the post's metadata record. -/
def processPost (hash : Txt → Txt) (post : Metadata) : Except String (List Document) :=
  match postCleanContent post with
  | .error e => .error e
  | .ok content =>
      if content.length < 25 then .ok []
      else .ok ((splitText content).map (fun c => ⟨c, postMeta hash post content⟩))

/-- The loop of `process_discourse_posts` over the parsed posts list. -/
def processDiscoursePosts (hash : Txt → Txt) : List Metadata → Except String (List Document)
  | [] => .ok []
  | p :: ps =>
      match processPost hash p with
      | .error e => .error e
      | .ok docs =>
          match processDiscoursePosts hash ps with
          | .error e => .error e
          | .ok rest => .ok (docs ++ rest)

/-- Strip a run of `"` characters from both ends (Python `strip('"')`). -/
def stripQuotes (t : Txt) : Txt :=
  ((t.dropWhile (fun c => c = '"')).reverse.dropWhile (fun c => c = '"')).reverse

/-- Parse a front-matter body (lines 59-62): every line containing a colon
contributes `key.strip() : value.strip().strip('"')`. -/
def parseFrontMatter (s : Txt) : Metadata :=
  (splitLines s).foldl
    (fun fm line =>
      match splitOnce [':'] line with
      | none => fm
      | some (k, v) => mset fm (String.mk (pyStrip k)) (.str (stripQuotes (pyStrip v))))
    []

/-- Front-matter extraction (lines 52-62): if the file starts with `---`
and `content.split('---', 2)` yields three parts, the middle part is the
front matter and the content becomes the final part; otherwise the content
is unchanged with no front matter. -/
def extractFrontMatter (content : Txt) : Txt × Metadata :=
  if (str "---").isPrefixOf content then
    match splitOnce (str "---") content with
    | none => (content, [])
    | some (_, rest1) =>
        match splitOnce (str "---") rest1 with
        | none => (content, [])
        | some (fmStr, rest2) => (rest2, parseFrontMatter fmStr)
  else (content, [])

/-- A file's content, with the result of `json.load` on it precomputed:
`json = none` models JSON that fails to parse (shapes other than an array
of objects are outside the modelled scope). -/
structure FileData where
  raw : Txt
  json : Option (List Metadata)
deriving DecidableEq

/-- The file system visible to a pipeline run. -/
abbrev FS := List (Txt × FileData)

/-- File lookup; `none` is a missing file. -/
def fsGet (fs : FS) (p : Txt) : Option FileData :=
  (fs.find? (fun q => q.1 = p)).map (fun q => q.2)

/-- `os.path.join(markdown_dir, item['filename'])` for relative names. -/
def pathJoin (dir fn : Txt) : Txt := dir ++ '/' :: fn

/-- The per-item loop of `load_markdown_content` (lines 45-75): items whose
markdown file does not exist are skipped silently; for the rest, optional
front matter is extracted and the item metadata, front matter, and the
fixed `source` / `content_type` fields are merged. -/
def loadItems (fs : FS) (dir : Txt) : List Metadata → Except String (List (Txt × Metadata))
  | [] => .ok []
  | item :: items =>
      match mget item "filename" with
      | none => .error "KeyError: filename"
      | some (.str fn) =>
          (match fsGet fs (pathJoin dir fn) with
          | none => loadItems fs dir items
          | some fd =>
              let bodyFm := extractFrontMatter fd.raw
              let md := mmerge (mmerge item bodyFm.2)
                [("source", .str (str "course_content")),
                 ("content_type", .str (str "course_material"))]
              match loadItems fs dir items with
              | .error e => .error e
              | .ok r => .ok ((bodyFm.1, md) :: r))
      | some _ => .error "TypeError: os.path.join"

/-- `TDSDataProcessor.load_markdown_content` (lines 38-77): opening a
missing metadata file or parsing invalid JSON raises and is not caught
anywhere in the pipeline. -/
def loadMarkdownContent (fs : FS) (metaFile dir : Txt) :
    Except String (List (Txt × Metadata)) :=
  match fsGet fs metaFile with
  | none => .error "FileNotFoundError"
  | some fd =>
      match fd.json with
      | none => .error "JSONDecodeError"
      | some items => loadItems fs dir items

/-- `TDSDataProcessor.process_course_content` (lines 99-137): split each
document by headers, then by size; each chunk's metadata merges the source
metadata, the header metadata and `doc_id` — the hash of the chunk text
*before* cleaning — while the stored `page_content` is the *cleaned* chunk
text. The `except` fallback (lines 128-135) is unreachable in this model
because the modelled splitters are total. -/
def processCourseContent (hash : Txt → Txt) (docs : List (Txt × Metadata)) : List Document :=
  (docs.map (fun dm =>
    ((headerSplit dm.1).map (fun seg =>
      (splitText seg.1).map (fun chunk =>
        Document.mk (cleanText chunk false)
          (mmerge (mmerge dm.2 seg.2) [("doc_id", .str (hash chunk))])))).join)).join

/-- Python falsiness of an optional bound string (`not date_from`). -/
def falsyOpt (o : Option Txt) : Bool :=
  match o with
  | none => true
  | some s => s = []

/-- The per-document retention test of `filter_by_date` (lines 218-238):
falsy `created_at` skips the document; a truthy non-string raises
`TypeError` out of the first `strptime` (only `ValueError` is caught);
a string is parsed under the two formats and compared inclusively. -/
def keepDoc (f t : PyDateTime) (doc : Document) : Except String Bool :=
  match mget doc.metadata "created_at" with
  | none => .ok false
  | some v =>
      if truthy v then
        match v with
        | .str s =>
            match parseTwoFormats s with
            | some pd => .ok (dtLe f pd && dtLe pd t)
            | none => .ok false
        | _ => .error "TypeError: strptime"
      else .ok false

/-- The filtering loop of `filter_by_date`. -/
def filterDocs (f t : PyDateTime) : List Document → Except String (List Document)
  | [] => .ok []
  | d :: ds =>
      match keepDoc f t d with
      | .error e => .error e
      | .ok b =>
          match filterDocs f t ds with
          | .error e => .error e
          | .ok rest => .ok (if b then d :: rest else rest)

/-- `TDSDataProcessor.filter_by_date` (lines 207-240): a falsy bound makes
the filter the identity; otherwise both bounds are parsed with
`fromisoformat` (raising on failure) and the documents are filtered. -/
def filterByDate (docs : List Document) (dateFrom dateTo : Option Txt) :
    Except String (List Document) :=
  if falsyOpt dateFrom ∨ falsyOpt dateTo then .ok docs
  else
    match fromIso (dateFrom.getD []) with
    | none => .error "ValueError: fromisoformat"
    | some f =>
        match fromIso (dateTo.getD []) with
        | none => .error "ValueError: fromisoformat"
        | some t => filterDocs f t docs

/-- `TDSDataProcessor.save_processed_data` (lines 242-262): keep documents
whose `quality_score` (default 0) is at least `min_quality` — comparing a
non-numeric score raises — and serialize each as a `{page_content,
metadata}` record with every metadata value unchanged. Returns the records
written. -/
def saveProcessedData (docs : List Document) (minQuality : Rat) :
    Except String (List Document) :=
  match docs with
  | [] => .ok []
  | d :: ds =>
      match asNum ((mget d.metadata "quality_score").getD (.int 0)) with
      | .error e => .error e
      | .ok q =>
          match saveProcessedData ds minQuality with
          | .error e => .error e
          | .ok rest => .ok (if minQuality ≤ q then d :: rest else rest)

/-- Whether a metadata value is a Python primitive in the sense of
`clean_metadata`'s `isinstance(value, (str, int, float, bool))` check. -/
def isPrim : MValue → Bool
  | .str _ => true
  | .int _ => true
  | .float _ => true
  | .bool _ => true
  | .list _ => false
  | .null => false

/-- `', '.join(...)`. -/
def joinComma : List Txt → Txt
  | [] => []
  | [x] => x
  | x :: rest => x ++ str ", " ++ joinComma rest

/-- One value coerced by `VectorStoreBuilder.clean_metadata`
(vector_store.py lines 23-38): `None` is kept, lists become comma-joined
strings, every other value in the modelled universe is already a
ChromaDB-compatible primitive and is kept as-is. -/
def cleanVal : MValue → MValue
  | .null => .null
  | .list l => .str (joinComma l)
  | .str s => .str s
  | .int n => .int n
  | .float q => .float q
  | .bool b => .bool b

/-- `VectorStoreBuilder.clean_metadata` (vector_store.py lines 17-40). -/
def cleanMetadata (md : Metadata) : Metadata := md.map (fun p => (p.1, cleanVal p.2))

/-- The configuration dict passed to `run_pipeline`, restricted to the
recognized keys; `none` models an absent key. -/
structure Config where
  markdown_metadata : Option Txt := none
  markdown_dir : Option Txt := none
  discourse_input : Option Txt := none
  date_from : Option Txt := none
  date_to : Option Txt := none
  output_file : Option Txt := none
  min_quality : Option Rat := none

/-- The file access of `process_discourse_posts` (lines 141-142): a missing
file or invalid JSON raises. -/
def readPosts (fs : FS) (p : Txt) : Except String (List Metadata) :=
  match fsGet fs p with
  | none => .error "FileNotFoundError"
  | some fd =>
      match fd.json with
      | none => .error "JSONDecodeError"
      | some posts => .ok posts

/-- `TDSDataProcessor.run_pipeline` (lines 264-306): the course stage runs
if both its keys are configured, the discourse stage if its key is
configured (with the date filter applied when both bounds are present in
the config); the stages' documents are concatenated, enhanced and saved
with the configured quality threshold. There is no exception handling:
any error aborts the whole run with nothing persisted. Returns the records
written to the output file. -/
def runPipeline (hash : Txt → Txt) (fs : FS) (config : Config) :
    Except String (List Document) :=
  let courseStage : Except String (List Document) :=
    match config.markdown_metadata, config.markdown_dir with
    | some mf, some dir =>
        match loadMarkdownContent fs mf dir with
        | .error e => .error e
        | .ok mdDocs => .ok (processCourseContent hash mdDocs)
    | _, _ => .ok []
  match courseStage with
  | .error e => .error e
  | .ok courseDocs =>
      let discourseStage : Except String (List Document) :=
        match config.discourse_input with
        | some inp =>
            match readPosts fs inp with
            | .error e => .error e
            | .ok posts =>
                match processDiscoursePosts hash posts with
                | .error e => .error e
                | .ok docs =>
                    match config.date_from, config.date_to with
                    | some df, some dt => filterByDate docs (some df) (some dt)
                    | _, _ => .ok docs
        | none => .ok []
      match discourseStage with
      | .error e => .error e
      | .ok discourseDocs =>
          match enhanceDocs (courseDocs ++ discourseDocs) with
          | .error e => .error e
          | .ok enhanced => saveProcessedData enhanced (config.min_quality.getD 0)

theorem roundHalfEven_intCast (n : ℤ) : roundHalfEven (n : Rat) = n := by
  unfold roundHalfEven
  rw [Int.floor_intCast, sub_self]
  norm_num

theorem round2_int (q : Rat) (n : ℤ) (h : q * 100 = (n : Rat)) : round2 q = q := by
  unfold round2
  rw [h, roundHalfEven_intCast, ← h]
  exact mul_div_cancel_right₀ q (by norm_num)

theorem roundHalfEven_mono {q r : Rat} (h : q ≤ r) :
    roundHalfEven q ≤ roundHalfEven r := by
  have hf : ⌊q⌋ ≤ ⌊r⌋ := Int.floor_mono h
  unfold roundHalfEven
  rcases lt_or_eq_of_le hf with hlt | heq
  · split_ifs <;> omega
  · rw [← heq]
    have hq1 : q - (⌊q⌋ : Rat) ≤ r - (⌊q⌋ : Rat) := by linarith
    split_ifs <;> first | omega | linarith

theorem round2_mono {q r : Rat} (h : q ≤ r) : round2 q ≤ round2 r := by
  unfold round2
  have h1 : roundHalfEven (q * 100) ≤ roundHalfEven (r * 100) :=
    roundHalfEven_mono (by linarith)
  have h2 : ((roundHalfEven (q * 100) : ℤ) : Rat) ≤ ((roundHalfEven (r * 100) : ℤ) : Rat) := by
    exact_mod_cast h1
  exact (div_le_div_right (by norm_num)).mpr h2

theorem discourseScoreRaw_mul_100 (a : Bool) (l r : ℤ) :
    discourseScoreRaw a (l : Rat) (r : Rat) * 100 =
      ((50 + (if a then 30 else 0) + min 20 (2 * l) + min 10 (5 * r) : ℤ) : Rat) := by
  unfold discourseScoreRaw baseScore
  rw [add_mul, add_mul]
  have h1 : min (0.2 : Rat) ((l : Rat) / 50) * 100 = min 20 (2 * (l : Rat)) := by
    rw [min_mul_of_nonneg _ _ (by norm_num : (0 : Rat) ≤ 100)]
    congr 1
    · norm_num
    · field_simp
      ring
  have h2 : min (0.1 : Rat) ((r : Rat) / 20) * 100 = min 10 (5 * (r : Rat)) := by
    rw [min_mul_of_nonneg _ _ (by norm_num : (0 : Rat) ≤ 100)]
    congr 1
    · norm_num
    · field_simp
      ring
  rw [h1, h2]
  push_cast
  cases a <;> norm_num

theorem discourseScore_round_le (a : Bool) (l r : ℤ) :
    round2 (discourseScoreRaw a (l : Rat) (r : Rat)) ≤ 1.1 := by
  rw [round2_int _ _ (discourseScoreRaw_mul_100 a l r)]
  unfold discourseScoreRaw baseScore
  have h1 : min (0.2 : Rat) ((l : Rat) / 50) ≤ 0.2 := min_le_left _ _
  have h2 : min (0.1 : Rat) ((r : Rat) / 20) ≤ 0.1 := min_le_left _ _
  cases a <;> norm_num <;> linarith

theorem domainStep_mget (md md' : Metadata) (k : String) (h : domainStep md = .ok md')
    (hk : k ≠ "domain") : mget md' k = mget md k := by
  unfold domainStep at h
  cases hurl : mget md "url" with
  | none =>
      rw [hurl] at h
      simp only [Except.ok.injEq] at h
      rw [h]
  | some v =>
      rw [hurl] at h
      cases v with
      | str u =>
          simp only [Except.ok.injEq] at h
          rw [← h]
          exact mget_mset_ne _ _ _ _ (Ne.symm hk)
      | int n => simp at h
      | float q => simp at h
      | bool b => simp at h
      | list l => simp at h
      | null => simp at h

/-- Characterization of `enhance_metadata` on a non-course document that it
processes without error: the quality score is the rounded Discourse formula
over the document's own (defaulted) `like_count` / `reply_count` /
`is_accepted_answer` fields, and the content type is the `[code]`-based
classification prefixed to the document's `post_type`. -/
theorem enhanceDoc_forum (doc d : Document) (henh : enhanceDoc doc = .ok d)
    (hsrc : mget doc.metadata "source" ≠ some (.str (str "course_content"))) :
    ∃ likes replies pt,
      asNum ((mget doc.metadata "like_count").getD (.int 0)) = .ok likes ∧
      asNum ((mget doc.metadata "reply_count").getD (.int 0)) = .ok replies ∧
      mget doc.metadata "post_type" = some (.str pt) ∧
      d.page_content = doc.page_content ∧
      mget d.metadata "quality_score" = some (.float (round2 (discourseScoreRaw
        (otruthy (mget doc.metadata "is_accepted_answer")) likes replies))) ∧
      mget d.metadata "content_type" =
        some (.str ((if hasCode doc.page_content then str "code_" else str "text_") ++ pt)) := by
  unfold enhanceDoc at henh
  cases hdom : domainStep doc.metadata with
  | error e => rw [hdom] at henh; exact absurd henh (by simp)
  | ok md1 =>
    rw [hdom] at henh
    dsimp only at henh
    have hmg : ∀ k, k ≠ "domain" → mget md1 k = mget doc.metadata k :=
      fun k hk => domainStep_mget _ _ _ hdom hk
    cases hs : mget md1 "source" with
    | none => rw [hs] at henh; exact absurd henh (by simp)
    | some src =>
      rw [hs] at henh
      dsimp only at henh
      have hsrc1 : ¬ (src = .str (str "course_content")) := by
        intro hEq
        exact hsrc (by rw [← hmg "source" (by decide), hs, hEq])
      rw [if_neg hsrc1] at henh
      cases hl : asNum ((mget md1 "like_count").getD (.int 0)) with
      | error e => rw [hl] at henh; exact absurd henh (by simp)
      | ok likes =>
        rw [hl] at henh
        dsimp only at henh
        cases hr : asNum ((mget md1 "reply_count").getD (.int 0)) with
        | error e => rw [hr] at henh; exact absurd henh (by simp)
        | ok replies =>
          rw [hr] at henh
          dsimp only at henh
          cases hpt : mget (mset md1 "quality_score" (.float (round2
              (discourseScoreRaw (otruthy (mget md1 "is_accepted_answer"))
                likes replies)))) "post_type" with
          | none => rw [hpt] at henh; exact absurd henh (by simp)
          | some ptv =>
            rw [hpt] at henh
            rw [mget_mset_ne _ _ _ _ (by decide)] at hpt
            cases ptv with
            | str pt =>
                simp only [Except.ok.injEq] at henh
                refine ⟨likes, replies, pt, ?_, ?_, ?_, ?_, ?_, ?_⟩
                · rw [← hmg "like_count" (by decide)]; exact hl
                · rw [← hmg "reply_count" (by decide)]; exact hr
                · rw [← hmg "post_type" (by decide)]; exact hpt
                · rw [← henh]
                · rw [← henh]
                  simp only
                  rw [mget_mset_ne _ _ _ _ (by decide), mget_mset_self,
                    hmg "is_accepted_answer" (by decide)]
                · rw [← henh]
                  simp only
                  rw [mget_mset_self]
            | int n => exact absurd henh (by simp)
            | float q => exact absurd henh (by simp)
            | bool b => exact absurd henh (by simp)
            | list l => exact absurd henh (by simp)
            | null => exact absurd henh (by simp)

/-- Characterization of `enhance_metadata` on a course-content document it
processes without error: fixed score 1.0 and fixed content type. -/
theorem enhanceDoc_course (doc d : Document) (henh : enhanceDoc doc = .ok d)
    (hsrc : mget doc.metadata "source" = some (.str (str "course_content"))) :
    d.page_content = doc.page_content ∧
    mget d.metadata "quality_score" = some (.float 1) ∧
    mget d.metadata "content_type" = some (.str (str "course_material")) := by
  unfold enhanceDoc at henh
  cases hdom : domainStep doc.metadata with
  | error e => rw [hdom] at henh; exact absurd henh (by simp)
  | ok md1 =>
    rw [hdom] at henh
    dsimp only at henh
    have hs : mget md1 "source" = some (.str (str "course_content")) := by
      rw [domainStep_mget _ _ _ hdom (by decide)]; exact hsrc
    rw [hs] at henh
    dsimp only at henh
    rw [if_pos rfl] at henh
    simp only [Except.ok.injEq] at henh
    refine ⟨by rw [← henh], ?_, ?_⟩
    · rw [← henh]
      simp only
      rw [mget_mset_ne _ _ _ _ (by decide), mget_mset_self]
    · rw [← henh]
      simp only
      rw [mget_mset_self]

theorem discourseScoreRaw_mono_likes (a : Bool) (x y r : Rat) (h : x ≤ y) :
    discourseScoreRaw a x r ≤ discourseScoreRaw a y r := by
  unfold discourseScoreRaw
  have hd : x / 50 ≤ y / 50 := (div_le_div_right (by norm_num)).mpr h
  exact add_le_add (add_le_add le_rfl (min_le_min le_rfl hd)) le_rfl

/-- Membership characterization of `process_discourse_posts`: every
produced chunk comes from some post whose cleaned content it is a split
chunk of, and carries that post's metadata record. -/
theorem processDiscoursePosts_mem (hash : Txt → Txt) (posts : List Metadata)
    (docs : List Document) (h : processDiscoursePosts hash posts = .ok docs) :
    ∀ d ∈ docs, ∃ p ∈ posts, ∃ c, postCleanContent p = .ok c ∧
      d.page_content ∈ splitText c ∧ d.metadata = postMeta hash p c := by
  induction posts generalizing docs with
  | nil =>
      simp only [processDiscoursePosts, Except.ok.injEq] at h
      subst h
      intro d hd
      simp at hd
  | cons p ps ih =>
      unfold processDiscoursePosts at h
      cases hp : processPost hash p with
      | error e => rw [hp] at h; simp at h
      | ok pdocs =>
        rw [hp] at h
        cases hps : processDiscoursePosts hash ps with
        | error e => rw [hps] at h; simp at h
        | ok rest =>
          rw [hps] at h
          simp only [Except.ok.injEq] at h
          subst h
          intro d hd
          rcases List.mem_append.mp hd with hmem | hmem
          · unfold processPost at hp
            cases hc : postCleanContent p with
            | error e => rw [hc] at hp; simp at hp
            | ok c =>
              rw [hc] at hp
              dsimp only at hp
              by_cases hlen : c.length < 25
              · rw [if_pos hlen] at hp
                simp only [Except.ok.injEq] at hp
                subst hp
                simp at hmem
              · rw [if_neg hlen] at hp
                simp only [Except.ok.injEq] at hp
                subst hp
                obtain ⟨chunk, hchunk, hdl⟩ := List.mem_map.mp hmem
                refine ⟨p, List.mem_cons_self _ _, c, hc, ?_, ?_⟩
                · rw [← hdl]; exact hchunk
                · rw [← hdl]
          · obtain ⟨q, hq, hrest⟩ := ih rest hps d hmem
            exact ⟨q, List.mem_cons_of_mem _ hq, hrest⟩

theorem mget_postMeta_post_type (hash : Txt → Txt) (p : Metadata) (c : Txt) :
    mget (postMeta hash p c) "post_type" =
      some (.str (str (if otruthy (mget p "is_reply") then "answer" else "question"))) := rfl

theorem mget_postMeta_doc_id (hash : Txt → Txt) (p : Metadata) (c : Txt) :
    mget (postMeta hash p c) "doc_id" = some (.str (hash c)) := rfl

/-- C2: for every forum-post chunk, the quality score assigned by
`enhance_metadata` equals `round(0.5 + (0.3 if is_accepted_answer else 0) +
min(0.2, like_count/50) + min(0.1, reply_count/20), 2)`; there is no upper
clamp, the score never exceeds 1.1, and 1.1 is attained (accepted answer
with at least 10 likes and 2 replies). -/
theorem c2_quality_score_formula :
    (∀ doc d, enhanceDoc doc = .ok d →
      mget doc.metadata "source" ≠ some (.str (str "course_content")) →
      ∃ likes replies,
        asNum ((mget doc.metadata "like_count").getD (.int 0)) = .ok likes ∧
        asNum ((mget doc.metadata "reply_count").getD (.int 0)) = .ok replies ∧
        mget d.metadata "quality_score" = some (.float (round2 (discourseScoreRaw
          (otruthy (mget doc.metadata "is_accepted_answer")) likes replies)))) ∧
    (∀ (a : Bool) (l r : ℤ), round2 (discourseScoreRaw a (l : Rat) (r : Rat)) ≤ 1.1) ∧
    round2 (discourseScoreRaw true 10 2) = 1.1 := by
  refine ⟨?_, discourseScore_round_le, ?_⟩
  · intro doc d henh hsrc
    obtain ⟨likes, replies, pt, h1, h2, h3, h4, h5, h6⟩ := enhanceDoc_forum doc d henh hsrc
    exact ⟨likes, replies, h1, h2, h5⟩
  · have hval : discourseScoreRaw true 10 2 = 1.1 := by
      norm_num [discourseScoreRaw, baseScore, min_def]
    rw [hval]
    exact round2_int _ 110 (by norm_num)

/-- A concrete forum-post document, for witnesses. -/
def c2doc : Document :=
  ⟨str "Use pandas.",
   [("source", .str (str "discourse")), ("post_type", .str (str "answer")),
    ("is_accepted_answer", .bool true), ("like_count", .int 100),
    ("reply_count", .int 5)]⟩

/-- The enhanced form of `c2doc`. -/
def c2enh : Document :=
  ⟨str "Use pandas.",
   [("source", .str (str "discourse")), ("post_type", .str (str "answer")),
    ("is_accepted_answer", .bool true), ("like_count", .int 100),
    ("reply_count", .int 5),
    ("quality_score", .float (11/10)), ("content_type", .str (str "text_answer"))]⟩

unseal Rat.add Rat.mul Rat.inv Rat.sub Rat.ofScientific in
theorem c2_quality_score_formula_witness :
    ∃ likes replies,
      asNum ((mget c2doc.metadata "like_count").getD (.int 0)) = .ok likes ∧
      asNum ((mget c2doc.metadata "reply_count").getD (.int 0)) = .ok replies ∧
      mget c2enh.metadata "quality_score" = some (.float (round2 (discourseScoreRaw
        (otruthy (mget c2doc.metadata "is_accepted_answer")) likes replies))) :=
  c2_quality_score_formula.1 c2doc c2enh (by decide) (by decide)

/-- C8: for forum-post chunks, increasing `like_count` with all other
metadata fixed never decreases the assigned quality score, and for an
accepted answer the base score before the like/reply contributions is at
least 0.8. -/
theorem c8_quality_monotonicity :
    (∀ (doc : Document) (n1 n2 : ℤ) (d1 d2 : Document), n1 ≤ n2 →
      enhanceDoc ⟨doc.page_content, mset doc.metadata "like_count" (.int n1)⟩ = .ok d1 →
      enhanceDoc ⟨doc.page_content, mset doc.metadata "like_count" (.int n2)⟩ = .ok d2 →
      mget doc.metadata "source" ≠ some (.str (str "course_content")) →
      ∃ q1 q2, mget d1.metadata "quality_score" = some (.float q1) ∧
        mget d2.metadata "quality_score" = some (.float q2) ∧ q1 ≤ q2) ∧
    (∀ a : Bool, a = true → (0.8 : Rat) ≤ baseScore a) := by
  constructor
  · intro doc n1 n2 d1 d2 hn h1 h2 hsrc
    have hsrc1 : mget (mset doc.metadata "like_count" (.int n1)) "source"
        ≠ some (.str (str "course_content")) := by
      rw [mget_mset_ne _ _ _ _ (by decide)]; exact hsrc
    have hsrc2 : mget (mset doc.metadata "like_count" (.int n2)) "source"
        ≠ some (.str (str "course_content")) := by
      rw [mget_mset_ne _ _ _ _ (by decide)]; exact hsrc
    obtain ⟨l1, r1, p1, hl1, hr1, hp1, hpc1, hq1, hc1⟩ := enhanceDoc_forum _ d1 h1 hsrc1
    obtain ⟨l2, r2, p2, hl2, hr2, hp2, hpc2, hq2, hc2⟩ := enhanceDoc_forum _ d2 h2 hsrc2
    simp only at hl1 hr1 hq1 hl2 hr2 hq2
    rw [mget_mset_self] at hl1 hl2
    rw [mget_mset_ne _ _ _ _ (by decide)] at hr1 hr2
    rw [mget_mset_ne _ _ _ _ (by decide)] at hq1 hq2
    have el1 : l1 = (n1 : Rat) := by
      simp only [asNum, Option.getD_some, Except.ok.injEq] at hl1
      exact hl1.symm
    have el2 : l2 = (n2 : Rat) := by
      simp only [asNum, Option.getD_some, Except.ok.injEq] at hl2
      exact hl2.symm
    have er : r1 = r2 := by
      rw [hr1] at hr2
      simp only [Except.ok.injEq] at hr2
      exact hr2
    refine ⟨_, _, hq1, hq2, ?_⟩
    apply round2_mono
    rw [el1, el2, er]
    exact discourseScoreRaw_mono_likes _ _ _ _ (by exact_mod_cast hn)
  · intro a ha
    subst ha
    norm_num [baseScore]

/-- A concrete forum-post document without its like count, for the C8
witness. -/
def c8doc : Document :=
  ⟨str "Use pandas.",
   [("source", .str (str "discourse")), ("post_type", .str (str "answer")),
    ("is_accepted_answer", .bool false), ("reply_count", .int 5)]⟩

/-- `c8doc` with `like_count = n`, enhanced. -/
def c8enh (n : ℤ) (q : Rat) : Document :=
  ⟨str "Use pandas.",
   [("source", .str (str "discourse")), ("post_type", .str (str "answer")),
    ("is_accepted_answer", .bool false), ("reply_count", .int 5),
    ("like_count", .int n),
    ("quality_score", .float q), ("content_type", .str (str "text_answer"))]⟩

unseal Rat.add Rat.mul Rat.inv Rat.sub Rat.ofScientific in
theorem c8_quality_monotonicity_witness :
    (∃ q1 q2, mget (c8enh 3 (66/100)).metadata "quality_score" = some (.float q1) ∧
      mget (c8enh 7 (74/100)).metadata "quality_score" = some (.float q2) ∧ q1 ≤ q2) ∧
    (0.8 : Rat) ≤ baseScore true :=
  ⟨c8_quality_monotonicity.1 c8doc 3 7 (c8enh 3 (66/100)) (c8enh 7 (74/100))
      (by decide) (by decide) (by decide) (by decide),
   c8_quality_monotonicity.2 true rfl⟩

/-- C6: after enhancement, course-content chunks have `quality_score`
exactly 1.0 and `content_type` exactly `course_material`; forum-post
chunks get `content_type` prefix `code_` exactly when the cleaned text
contains `[code]` case-insensitively and prefix `text_` otherwise, with
the suffix `post_type` that `process_discourse_posts` sets to `answer`
for replies and `question` otherwise. -/
theorem c6_content_types :
    (∀ doc d, enhanceDoc doc = .ok d →
      mget doc.metadata "source" = some (.str (str "course_content")) →
      mget d.metadata "quality_score" = some (.float 1) ∧
      mget d.metadata "content_type" = some (.str (str "course_material"))) ∧
    (∀ doc d pt, enhanceDoc doc = .ok d →
      mget doc.metadata "source" ≠ some (.str (str "course_content")) →
      mget doc.metadata "post_type" = some (.str pt) →
      mget d.metadata "content_type" =
        some (.str ((if hasCode doc.page_content then str "code_" else str "text_") ++ pt))) ∧
    (∀ hash posts docs, processDiscoursePosts hash posts = .ok docs → ∀ d ∈ docs,
      ∃ p ∈ posts, mget d.metadata "post_type" =
        some (.str (str (if otruthy (mget p "is_reply") then "answer" else "question")))) := by
  refine ⟨?_, ?_, ?_⟩
  · intro doc d henh hsrc
    exact (enhanceDoc_course doc d henh hsrc).2
  · intro doc d pt henh hsrc hpt
    obtain ⟨likes, replies, pt', h1, h2, h3, h4, h5, h6⟩ := enhanceDoc_forum doc d henh hsrc
    rw [hpt] at h3
    simp only [Option.some.injEq, MValue.str.injEq] at h3
    rw [← h3] at h6
    exact h6
  · intro hash posts docs h d hd
    obtain ⟨p, hp, c, hc, hchunk, hmd⟩ := processDiscoursePosts_mem hash posts docs h d hd
    exact ⟨p, hp, by rw [hmd]; exact mget_postMeta_post_type hash p c⟩

/-- A concrete course-content document, for witnesses. -/
def c6doc : Document :=
  ⟨str "Short text.", [("source", .str (str "course_content")), ("title", .str (str "A"))]⟩

/-- The enhanced form of `c6doc`. -/
def c6enh : Document :=
  ⟨str "Short text.",
   [("source", .str (str "course_content")), ("title", .str (str "A")),
    ("quality_score", .float 1), ("content_type", .str (str "course_material"))]⟩

/-- A concrete reply post whose cleaned content contains `[code]`, for the
C6 witness. -/
def c6post : Metadata :=
  [("content", .str (str "Try this snippet ```x = 1``` and report back what happens.")),
   ("is_reply", .bool true)]

/-- The single document produced from `c6post` (hash modelled by the
identity function). -/
def c6forumDoc : Document :=
  ⟨str "Try this snippet [code] and report back what happens.",
   postMeta (fun t => t) c6post (str "Try this snippet [code] and report back what happens.")⟩

unseal Rat.add Rat.mul Rat.inv Rat.sub Rat.ofScientific in
theorem c6_content_types_witness :
    (mget c6enh.metadata "quality_score" = some (.float 1) ∧
      mget c6enh.metadata "content_type" = some (.str (str "course_material"))) ∧
    (∃ p ∈ [c6post], mget c6forumDoc.metadata "post_type" =
      some (.str (str (if otruthy (mget p "is_reply") then "answer" else "question")))) :=
  ⟨c6_content_types.1 c6doc c6enh (by decide) (by decide),
   c6_content_types.2.2 (fun t => t) [c6post] [c6forumDoc] (by decide)
      c6forumDoc (by decide)⟩

/-- C10: a forum post whose cleaned content is empty or shorter than 25
characters is skipped silently: processing the post list with it equals
processing the post list without it. -/
theorem c10_short_posts_skipped (hash : Txt → Txt) (post : Metadata) (c : Txt)
    (h1 : postCleanContent post = .ok c) (h2 : c.length < 25) :
    ∀ pre rest, processDiscoursePosts hash (pre ++ post :: rest) =
      processDiscoursePosts hash (pre ++ rest) := by
  have hp : processPost hash post = .ok [] := by
    unfold processPost
    rw [h1]
    dsimp only
    rw [if_pos h2]
  intro pre
  induction pre with
  | nil =>
      intro rest
      simp only [List.nil_append]
      conv_lhs => rw [processDiscoursePosts]
      rw [hp]
      dsimp only
      cases hr : processDiscoursePosts hash rest with
      | error e => rfl
      | ok r => simp
  | cons q pre ih =>
      intro rest
      simp only [List.cons_append]
      conv_lhs => rw [processDiscoursePosts]
      conv_rhs => rw [processDiscoursePosts]
      rw [ih rest]

/-- A concrete too-short forum post. -/
def c10post : Metadata := [("content", .str (str "too short")), ("is_reply", .bool true)]

theorem c10_short_posts_skipped_witness :
    processDiscoursePosts (fun t => t) [c10post] = processDiscoursePosts (fun t => t) [] :=
  c10_short_posts_skipped (fun t => t) c10post (str "too short")
    (by decide) (by decide) [] []

/-- `clean_metadata` rewrites values pointwise. -/
theorem mget_cleanMetadata (md : Metadata) (k : String) :
    mget (cleanMetadata md) k = (mget md k).map cleanVal := by
  induction md with
  | nil => rfl
  | cons p md ih =>
      by_cases hk : p.1 = k
      · simp [cleanMetadata, mget, List.find?, hk]
      · simpa [cleanMetadata, mget, List.find?, hk] using ih

theorem saveProcessedData_mem (docs : List Document) (minq : Rat)
    (res : List Document) (h : saveProcessedData docs minq = .ok res) :
    ∀ r ∈ res, r ∈ docs := by
  induction docs generalizing res with
  | nil =>
      simp only [saveProcessedData, Except.ok.injEq] at h
      subst h
      intro r hr
      simp at hr
  | cons d ds ih =>
      unfold saveProcessedData at h
      cases hq : asNum ((mget d.metadata "quality_score").getD (.int 0)) with
      | error e => rw [hq] at h; simp at h
      | ok q =>
        rw [hq] at h
        cases hs : saveProcessedData ds minq with
        | error e => rw [hs] at h; simp at h
        | ok rest =>
          rw [hs] at h
          simp only [Except.ok.injEq] at h
          subst h
          intro r hr
          by_cases hcmp : minq ≤ q
          · rw [if_pos hcmp] at hr
            rcases List.mem_cons.mp hr with hr | hr
            · exact hr ▸ List.mem_cons_self _ _
            · exact List.mem_cons_of_mem _ (ih rest hs r hr)
          · rw [if_neg hcmp] at hr
            exact List.mem_cons_of_mem _ (ih rest hs r hr)

/-- C5 counterexample: `save_processed_data` persists the record with its
`tags` value still a list — not coerced to a primitive, and not the
comma-joined string the claim requires. -/
theorem c5_counterexample :
    saveProcessedData [⟨str "hello", [("quality_score", .float 1),
        ("tags", .list [str "a", str "b"])]⟩] 0 =
      .ok [⟨str "hello", [("quality_score", .float 1),
        ("tags", .list [str "a", str "b"])]⟩] ∧
    mget [("quality_score", MValue.float 1), ("tags", MValue.list [str "a", str "b"])]
        "tags" = some (.list [str "a", str "b"]) ∧
    isPrim (.list [str "a", str "b"]) = false ∧
    mget [("quality_score", MValue.float 1), ("tags", MValue.list [str "a", str "b"])]
        "tags" ≠ some (.str (str "a, b")) := by decide

/-- C5 amended: `save_processed_data` writes every retained record — and in
particular every metadata value — unchanged (lists stay lists); the
coercion the claim describes happens later, in the vector-store builder's
`clean_metadata`, where every value becomes a primitive or `None` and list
values become comma-joined strings. -/
theorem c5_metadata_coercion :
    (∀ docs minq res, saveProcessedData docs minq = .ok res → ∀ r ∈ res, r ∈ docs) ∧
    (∀ md k v, mget (cleanMetadata md) k = some v → (isPrim v = true ∨ v = .null)) ∧
    (∀ md k l, mget md k = some (.list l) →
      mget (cleanMetadata md) k = some (.str (joinComma l))) := by
  refine ⟨saveProcessedData_mem, ?_, ?_⟩
  · intro md k v h
    rw [mget_cleanMetadata] at h
    cases hv : mget md k with
    | none => rw [hv] at h; simp at h
    | some w =>
        rw [hv] at h
        simp only [Option.map_some', Option.some.injEq] at h
        subst h
        cases w <;> simp [cleanVal, isPrim]
  · intro md k l h
    rw [mget_cleanMetadata, h]
    rfl

theorem c5_metadata_coercion_witness :
    (⟨str "hello", [("tags", MValue.list [str "a", str "b"])]⟩ : Document) ∈
      [(⟨str "hello", [("tags", MValue.list [str "a", str "b"])]⟩ : Document)] ∧
    (isPrim (cleanVal (.list [str "a", str "b"])) = true ∨
      cleanVal (.list [str "a", str "b"]) = .null) ∧
    mget (cleanMetadata [("tags", MValue.list [str "a", str "b"])]) "tags" =
      some (.str (joinComma [str "a", str "b"])) :=
  ⟨c5_metadata_coercion.1 [⟨str "hello", [("tags", MValue.list [str "a", str "b"])]⟩] 0
      [⟨str "hello", [("tags", MValue.list [str "a", str "b"])]⟩] (by decide) _ (by decide),
   c5_metadata_coercion.2.1 [("tags", MValue.list [str "a", str "b"])] "tags"
      (cleanVal (.list [str "a", str "b"])) (by decide),
   c5_metadata_coercion.2.2 [("tags", MValue.list [str "a", str "b"])] "tags"
      [str "a", str "b"] (by decide)⟩

/-- The `created_at` parse performed by the date filter on a string value
(absent or non-string values never parse). -/
def parseCreatedAt (d : Document) : Option PyDateTime :=
  match mget d.metadata "created_at" with
  | some (.str s) => parseTwoFormats s
  | _ => none

/-- Documents whose `created_at` cannot make the filter raise: the value is
absent, a string, or falsy (a truthy non-string raises `TypeError` out of
the uncaught first `strptime` call). -/
def createdAtWF (d : Document) : Bool :=
  match mget d.metadata "created_at" with
  | none => true
  | some (.str _) => true
  | some v => !truthy v

theorem keepDoc_eq (f t : PyDateTime) (d : Document) (hwf : createdAtWF d = true) :
    keepDoc f t d = .ok (match parseCreatedAt d with
      | some pd => dtLe f pd && dtLe pd t
      | none => false) := by
  unfold keepDoc parseCreatedAt
  unfold createdAtWF at hwf
  cases hmv : mget d.metadata "created_at" with
  | none => rfl
  | some v =>
      rw [hmv] at hwf
      cases v with
      | str s =>
          try dsimp only
          by_cases hs : s = []
          · subst hs
            rw [show truthy (.str []) = false from rfl]
            rw [show parseTwoFormats [] = none from rfl]
            rfl
          · rw [show truthy (.str s) = true from by simp [truthy, hs]]
            try dsimp only
            cases parseTwoFormats s <;> rfl
      | int n =>
          simp only [Bool.not_eq_true'] at hwf
          try dsimp only
          rw [hwf]
          rfl
      | float q =>
          simp only [Bool.not_eq_true'] at hwf
          try dsimp only
          rw [hwf]
          rfl
      | bool b =>
          simp only [Bool.not_eq_true'] at hwf
          try dsimp only
          rw [hwf]
          rfl
      | list l =>
          simp only [Bool.not_eq_true'] at hwf
          try dsimp only
          rw [hwf]
          rfl
      | null => rfl

theorem filterDocs_eq (f t : PyDateTime) (docs : List Document)
    (hwf : ∀ d ∈ docs, createdAtWF d = true) :
    filterDocs f t docs = .ok (docs.filter (fun d =>
      match parseCreatedAt d with
      | some pd => dtLe f pd && dtLe pd t
      | none => false)) := by
  induction docs with
  | nil => rfl
  | cons d ds ih =>
      have hd := hwf d (List.mem_cons_self _ _)
      have hds := fun x hx => hwf x (List.mem_cons_of_mem _ hx)
      unfold filterDocs
      rw [keepDoc_eq f t d hd, ih hds]
      dsimp only
      cases hpd : parseCreatedAt d with
      | none => simp [List.filter, hpd]
      | some pd =>
          by_cases hit : (dtLe f pd && dtLe pd t) = true
          · simp [List.filter, hpd, hit]
          · simp only [Bool.not_eq_true] at hit
            simp [List.filter, hpd, hit]

/-- C3: with both bounds present and parseable, the date filter retains a
chunk exactly when its `created_at` parses under one of the two accepted
`Z`-suffixed formats and the parsed timestamp lies inclusively between the
bounds; missing and unparseable timestamps are dropped silently; if either
bound is absent or empty the filter returns its input unchanged. (The
well-formedness hypothesis excludes truthy non-string `created_at` values,
on which the code raises instead.) -/
theorem c3_date_filter :
    (∀ docs df dt, (falsyOpt df ∨ falsyOpt dt) → filterByDate docs df dt = .ok docs) ∧
    (∀ docs df dt f t, fromIso df = some f → fromIso dt = some t →
      (∀ d ∈ docs, createdAtWF d = true) →
      ∃ res, filterByDate docs (some df) (some dt) = .ok res ∧
        ∀ d, d ∈ res ↔ (d ∈ docs ∧ ∃ pd, parseCreatedAt d = some pd ∧
          dtLe f pd = true ∧ dtLe pd t = true)) := by
  constructor
  · intro docs df dt h
    unfold filterByDate
    rw [if_pos h]
  · intro docs df dt f t hf ht hwf
    have hne : ¬ (falsyOpt (some df) = true ∨ falsyOpt (some dt) = true) := by
      rintro (h | h)
      · have hdf : df = [] := by simpa [falsyOpt] using h
        rw [hdf, show fromIso ([] : Txt) = none from rfl] at hf
        exact Option.noConfusion hf
      · have hdt : dt = [] := by simpa [falsyOpt] using h
        rw [hdt, show fromIso ([] : Txt) = none from rfl] at ht
        exact Option.noConfusion ht
    refine ⟨docs.filter (fun d =>
      match parseCreatedAt d with
      | some pd => dtLe f pd && dtLe pd t
      | none => false), ?_, ?_⟩
    · unfold filterByDate
      rw [if_neg hne]
      simp only [Option.getD_some]
      rw [hf]
      dsimp only
      rw [ht]
      dsimp only
      exact filterDocs_eq f t docs hwf
    · intro d
      rw [List.mem_filter]
      constructor
      · rintro ⟨hmem, hpred⟩
        refine ⟨hmem, ?_⟩
        cases hpd : parseCreatedAt d with
        | none => rw [hpd] at hpred; simp at hpred
        | some pd =>
            rw [hpd] at hpred
            simp only [Bool.and_eq_true] at hpred
            exact ⟨pd, rfl, hpred.1, hpred.2⟩
      · rintro ⟨hmem, pd, hpd, h1, h2⟩
        refine ⟨hmem, ?_⟩
        rw [hpd]
        simp [h1, h2]

/-- Concrete documents for the C3 witness: one in range, one out of range,
one with an unparseable timestamp. -/
def c3docIn : Document :=
  ⟨str "in", [("created_at", .str (str "2025-03-01T10:00:00Z"))]⟩

def c3docOut : Document :=
  ⟨str "out", [("created_at", .str (str "2025-05-01T00:00:00Z"))]⟩

def c3docBad : Document :=
  ⟨str "bad", [("created_at", .str (str "not a date"))]⟩

theorem c3_date_filter_witness :
    (filterByDate [c3docIn] none (some (str "2025-04-14")) = .ok [c3docIn]) ∧
    (∃ res, filterByDate [c3docIn, c3docOut, c3docBad]
        (some (str "2025-01-01")) (some (str "2025-04-14")) = .ok res ∧
      ∀ d, d ∈ res ↔ (d ∈ [c3docIn, c3docOut, c3docBad] ∧
        ∃ pd, parseCreatedAt d = some pd ∧
          dtLe ⟨2025, 1, 1, 0, 0, 0, 0⟩ pd = true ∧
          dtLe pd ⟨2025, 4, 14, 0, 0, 0, 0⟩ = true)) :=
  ⟨c3_date_filter.1 [c3docIn] none (some (str "2025-04-14")) (Or.inl (by decide)),
   c3_date_filter.2 [c3docIn, c3docOut, c3docBad] (str "2025-01-01") (str "2025-04-14")
      ⟨2025, 1, 1, 0, 0, 0, 0⟩ ⟨2025, 4, 14, 0, 0, 0, 0⟩ (by decide) (by decide)
      (by decide)⟩

/-- A file system with a valid markdown metadata file and its markdown
file, but no Discourse posts file. -/
def c4fs : FS :=
  [(str "meta.json",
    ⟨str "[]", some [[("filename", .str (str "a.md")), ("title", .str (str "A"))]]⟩),
   (str "md/a.md", ⟨str "Course text about pandas.", none⟩)]

/-- A configuration enabling both stages, whose Discourse input file is
missing from `c4fs`. -/
def c4cfg : Config :=
  { markdown_metadata := some (str "meta.json"), markdown_dir := some (str "md"),
    discourse_input := some (str "posts.json") }

/-- A forum post long enough to survive the 25-character cut, with no
markup, for the C4 counterexample. -/
def c4post : Metadata :=
  [("content", .str (str "Use pandas for this small task, please."))]

/-- A file system with a valid Discourse posts file but no markdown
metadata file. -/
def c4fs2 : FS := [(str "posts.json", ⟨str "[..]", some [c4post]⟩)]

/-- A configuration enabling both stages, whose markdown metadata file is
missing from `c4fs2`. -/
def c4cfg2 : Config :=
  { markdown_metadata := some (str "meta.json"), markdown_dir := some (str "md"),
    discourse_input := some (str "posts.json") }

/-- A file system whose markdown metadata file exists but holds invalid
JSON, beside a valid (empty) Discourse posts file. -/
def c4fs3 : FS :=
  [(str "meta.json", ⟨str "not json", none⟩),
   (str "posts.json", ⟨str "[]", some []⟩)]

/-- C4 counterexample: in both directions the surviving stage's output is
lost instead of persisted. With a valid markdown metadata file but a
missing Discourse posts file, the course stage alone would succeed (it
loads one document), yet the whole run aborts with an uncaught
`FileNotFoundError`; symmetrically, with a valid posts file but a missing
markdown metadata file, the discourse stage alone would succeed (it
produces one chunk), yet the whole run aborts the same way — nothing is
persisted, instead of the claim's "the affected stage produces zero
documents and the run persists the other stage's output". -/
theorem c4_counterexample :
    ((∃ mdDocs, loadMarkdownContent c4fs (str "meta.json") (str "md") = .ok mdDocs ∧
        mdDocs.length = 1) ∧
      runPipeline (fun t => t) c4fs c4cfg = .error "FileNotFoundError") ∧
    ((∃ docs, processDiscoursePosts (fun t => t) [c4post] = .ok docs ∧
        docs.length = 1) ∧
      readPosts c4fs2 (str "posts.json") = .ok [c4post] ∧
      runPipeline (fun t => t) c4fs2 c4cfg2 = .error "FileNotFoundError") :=
  ⟨⟨⟨(loadMarkdownContent c4fs (str "meta.json") (str "md")).toOption.getD [],
      by decide, by decide⟩, by decide⟩,
   ⟨⟨(processDiscoursePosts (fun t => t) [c4post]).toOption.getD [],
      by decide, by decide⟩, by decide, by decide⟩⟩

theorem readPosts_error (fs : FS) (p : Txt)
    (h : fsGet fs p = none ∨ (∃ fd, fsGet fs p = some fd ∧ fd.json = none)) :
    ∃ e, readPosts fs p = .error e := by
  unfold readPosts
  rcases h with h | ⟨fd, h1, h2⟩
  · rw [h]
    exact ⟨_, rfl⟩
  · rw [h1]
    dsimp only
    rw [h2]
    exact ⟨_, rfl⟩

theorem loadMarkdownContent_error (fs : FS) (mf dir : Txt)
    (h : fsGet fs mf = none ∨ (∃ fd, fsGet fs mf = some fd ∧ fd.json = none)) :
    ∃ e, loadMarkdownContent fs mf dir = .error e := by
  unfold loadMarkdownContent
  rcases h with h | ⟨fd, h1, h2⟩
  · rw [h]
    exact ⟨_, rfl⟩
  · rw [h1]
    dsimp only
    rw [h2]
    exact ⟨_, rfl⟩

/-- C4 amended: `run_pipeline` has no exception handling, so a missing or
invalid input file on *either* side aborts the whole run with an uncaught
error and nothing is persisted: if the configured Discourse posts file is
missing or holds invalid JSON, the run aborts regardless of whether the
course stage was configured, succeeded or failed; and if the configured
markdown metadata file is missing or holds invalid JSON, the run aborts
before the discourse stage can contribute anything. In neither case is the
problem reduced to a logged message with the other stage's output kept. -/
theorem c4_missing_input_aborts :
    (∀ (hash : Txt → Txt) (fs : FS) (cfg : Config) (p : Txt),
      cfg.discourse_input = some p →
      (fsGet fs p = none ∨ (∃ fd, fsGet fs p = some fd ∧ fd.json = none)) →
      ∃ msg, runPipeline hash fs cfg = .error msg) ∧
    (∀ (hash : Txt → Txt) (fs : FS) (cfg : Config) (mf dir : Txt),
      cfg.markdown_metadata = some mf → cfg.markdown_dir = some dir →
      (fsGet fs mf = none ∨ (∃ fd, fsGet fs mf = some fd ∧ fd.json = none)) →
      ∃ msg, runPipeline hash fs cfg = .error msg) := by
  constructor
  · intro hash fs cfg p h1 h2
    obtain ⟨e, he⟩ := readPosts_error fs p h2
    unfold runPipeline
    dsimp only
    rw [h1]
    cases hcm : cfg.markdown_metadata with
    | none =>
        dsimp only
        rw [he]
        exact ⟨e, rfl⟩
    | some mf =>
        cases hcd : cfg.markdown_dir with
        | none =>
            dsimp only
            rw [he]
            exact ⟨e, rfl⟩
        | some dir =>
            dsimp only
            cases hld : loadMarkdownContent fs mf dir with
            | error e2 => exact ⟨e2, rfl⟩
            | ok mdDocs =>
                dsimp only
                rw [he]
                exact ⟨e, rfl⟩
  · intro hash fs cfg mf dir h1 h2 h3
    obtain ⟨e, he⟩ := loadMarkdownContent_error fs mf dir h3
    unfold runPipeline
    dsimp only
    rw [h1, h2]
    dsimp only
    rw [he]
    exact ⟨e, rfl⟩

theorem c4_missing_input_aborts_witness :
    (∃ msg, runPipeline (fun t => t) c4fs c4cfg = .error msg) ∧
    (∃ msg, runPipeline (fun t => t) c4fs3 c4cfg2 = .error msg) :=
  ⟨c4_missing_input_aborts.1 (fun t => t) c4fs c4cfg (str "posts.json") rfl
      (Or.inl (by decide)),
   c4_missing_input_aborts.2 (fun t => t) c4fs3 c4cfg2 (str "meta.json") (str "md")
      rfl rfl (Or.inr ⟨⟨str "not json", none⟩, by decide, rfl⟩)⟩

/-- Joint invariants of the whitespace-collapsing scan: every whitespace
character in the output is a space, no two adjacent output characters are
both whitespace, and the skip state never emits a leading whitespace
character. -/
theorem wsSub_wsSkip_props (l : Txt) :
    ((∀ c ∈ wsSub l, pyWS c = true → c = ' ') ∧
      List.Chain' (fun a b => ¬(pyWS a = true ∧ pyWS b = true)) (wsSub l)) ∧
    ((∀ c ∈ wsSkip l, pyWS c = true → c = ' ') ∧
      List.Chain' (fun a b => ¬(pyWS a = true ∧ pyWS b = true)) (wsSkip l) ∧
      (∀ x, (wsSkip l).head? = some x → pyWS x = false)) := by
  induction l with
  | nil => simp [wsSub, wsSkip]
  | cons c cs ih =>
    obtain ⟨⟨ihs1, ihs2⟩, ihk1, ihk2, ihk3⟩ := ih
    by_cases hc : pyWS c
    · constructor
      · constructor
        · intro x hx hwx
          simp only [wsSub, hc, if_true, List.mem_cons] at hx
          rcases hx with hx | hx
          · exact hx
          · exact ihk1 x hx hwx
        · simp only [wsSub, hc, if_true]
          rw [List.chain'_cons']
          refine ⟨?_, ihk2⟩
          intro b hb
          intro hcontra
          have := ihk3 b hb
          rw [this] at hcontra
          exact absurd hcontra.2 (by simp)
      · simp only [wsSkip, hc, if_true]
        exact ⟨ihk1, ihk2, ihk3⟩
    · have hc' : pyWS c = false := by simpa using hc
      constructor
      · constructor
        · intro x hx hwx
          simp only [wsSub, hc', Bool.false_eq_true, if_false, List.mem_cons] at hx
          rcases hx with hx | hx
          · rw [hx] at hwx
            rw [hwx] at hc'
            exact absurd hc' (by simp)
          · exact ihs1 x hx hwx
        · simp only [wsSub, hc', Bool.false_eq_true, if_false]
          rw [List.chain'_cons']
          refine ⟨?_, ihs2⟩
          intro b hb hcontra
          rw [hcontra.1] at hc'
          exact absurd hc' (by simp)
      · simp only [wsSkip, hc', Bool.false_eq_true, if_false]
        refine ⟨?_, ?_, ?_⟩
        · intro x hx hwx
          rcases List.mem_cons.mp hx with hx | hx
          · rw [hx] at hwx
            rw [hwx] at hc'
            exact absurd hc' (by simp)
          · exact ihs1 x hx hwx
        · rw [List.chain'_cons']
          refine ⟨?_, ihs2⟩
          intro b hb hcontra
          rw [hcontra.1] at hc'
          exact absurd hc' (by simp)
        · intro x hx
          simp only [List.head?_cons, Option.some.injEq] at hx
          rw [← hx]
          exact hc'

theorem no_newline_of_spacesOnly (l : Txt) (h : ∀ c ∈ l, pyWS c = true → c = ' ') :
    '\n' ∉ l := by
  intro hmem
  have := h '\n' hmem (by decide)
  exact absurd this (by decide)

theorem emptyLineSubF_id (fuel : Nat) (l : Txt) (h : '\n' ∉ l) :
    emptyLineSubF fuel l = l := by
  induction fuel generalizing l with
  | zero => rfl
  | succ fuel ih =>
    cases l with
    | nil => rfl
    | cons c cs =>
      have hc : ¬ (c = '\n') := fun hEq => h (hEq ▸ List.mem_cons_self _ _)
      have hcs : '\n' ∉ cs := fun hm => h (List.mem_cons_of_mem _ hm)
      simp only [emptyLineSubF]
      rw [if_neg (by simp [hc])]
      rw [ih cs hcs]

theorem emptyLineSub_id (l : Txt) (h : '\n' ∉ l) : emptyLineSub l = l :=
  emptyLineSubF_id _ l h

/-- The two strip stages: `pyStrip l` is a prefix of a suffix of `l`. -/
theorem pyStrip_pfx_sfx (l : Txt) :
    pyStrip l <+: l.dropWhile pyWS ∧ l.dropWhile pyWS <:+ l := by
  constructor
  · refine ⟨((l.dropWhile pyWS).reverse.takeWhile pyWS).reverse, ?_⟩
    unfold pyStrip
    rw [← List.reverse_append, List.takeWhile_append_dropWhile, List.reverse_reverse]
  · exact ⟨l.takeWhile pyWS, l.takeWhile_append_dropWhile pyWS⟩

theorem chainState_of_pfx {R : Char → Char → Prop} {l1 l2 : Txt}
    (h : List.Chain' R l2) (hp : l1 <+: l2) : List.Chain' R l1 := by
  obtain ⟨post, hpost⟩ := hp
  rw [← hpost] at h
  exact (List.chain'_append.mp h).1

theorem chainState_of_sfx {R : Char → Char → Prop} {l1 l2 : Txt}
    (h : List.Chain' R l2) (hs : l1 <:+ l2) : List.Chain' R l1 := by
  obtain ⟨pre, hpre⟩ := hs
  rw [← hpre] at h
  exact (List.chain'_append.mp h).2.1

/-- The cleaned text never contains two adjacent whitespace characters,
every whitespace character in it is a plain space, and it contains no
newline at all (so no blank line survives cleaning). -/
theorem cleanText_ws_props (t : Txt) (d : Bool) :
    (∀ c ∈ cleanText t d, pyWS c = true → c = ' ') ∧
    List.Chain' (fun a b => ¬(pyWS a = true ∧ pyWS b = true)) (cleanText t d) ∧
    '\n' ∉ cleanText t d := by
  unfold cleanText
  by_cases ht : t = []
  · simp [ht]
  · rw [if_neg ht]
    dsimp only
    generalize urlSub (if d then codeBlockSub (mentionSub (quoteSub (stripTags t)))
      else stripTags t) = u
    obtain ⟨⟨hs1, hs2⟩, -⟩ := wsSub_wsSkip_props u
    have hnl : '\n' ∉ wsSub u := no_newline_of_spacesOnly _ hs1
    rw [emptyLineSub_id _ hnl]
    obtain ⟨hpfx, hsfx⟩ := pyStrip_pfx_sfx (wsSub u)
    have hsub : pyStrip (wsSub u) ⊆ wsSub u := fun x hx =>
      (List.IsSuffix.subset hsfx) ((List.IsPrefix.subset hpfx) hx)
    refine ⟨fun c hc => hs1 c (hsub hc), ?_, fun hc => hnl (hsub hc)⟩
    exact chainState_of_pfx (chainState_of_sfx hs2 hsfx) hpfx

theorem stripTags_id (l : Txt) (h : '<' ∉ l) : stripTags l = l := by
  induction l with
  | nil => rfl
  | cons c cs ih =>
    have hc : ¬ (c = '<') := fun hEq => h (hEq ▸ List.mem_cons_self _ _)
    simp only [stripTags, hc, if_false]
    rw [ih (fun hm => h (List.mem_cons_of_mem _ hm))]

theorem isPrefixOf_head_ne (x c : Char) (xs cs : Txt) (h : c ≠ x) :
    (x :: xs).isPrefixOf (c :: cs) = false := by
  simp [List.isPrefixOf, Ne.symm h]

theorem quoteSubF_id (fuel : Nat) (b : Bool) (l : Txt) (h : '[' ∉ l) :
    quoteSubF fuel b l = l := by
  induction fuel generalizing b l with
  | zero => rfl
  | succ fuel ih =>
    cases l with
    | nil => rfl
    | cons c cs =>
      have hc : c ≠ '[' := fun hEq => h (hEq ▸ List.mem_cons_self _ _)
      have hcs : '[' ∉ cs := fun hm => h (List.mem_cons_of_mem _ hm)
      simp only [quoteSubF]
      rw [show str "[quote=" = '[' :: str "quote=" from rfl,
        isPrefixOf_head_ne _ _ _ _ hc]
      rw [if_neg (by simp)]
      rw [ih _ cs hcs]

theorem mentionAux_id (l : Txt) (h : '@' ∉ l) : mentionAux false l = l := by
  induction l with
  | nil => rfl
  | cons c cs ih =>
    have hc : ¬ (c = '@') := fun hEq => h (hEq ▸ List.mem_cons_self _ _)
    simp only [mentionAux]
    rw [if_neg (by simp), if_neg (by simp [hc])]
    rw [ih (fun hm => h (List.mem_cons_of_mem _ hm))]

theorem codeBlockSubF_id (fuel : Nat) (l : Txt) (h : '`' ∉ l) :
    codeBlockSubF fuel l = l := by
  induction fuel generalizing l with
  | zero => rfl
  | succ fuel ih =>
    cases l with
    | nil => rfl
    | cons c cs =>
      have hc : c ≠ '`' := fun hEq => h (hEq ▸ List.mem_cons_self _ _)
      have hcs : '`' ∉ cs := fun hm => h (List.mem_cons_of_mem _ hm)
      simp only [codeBlockSubF]
      rw [show str "```" = '`' :: str "``" from rfl, isPrefixOf_head_ne _ _ _ _ hc]
      rw [if_neg (by simp)]
      rw [ih cs hcs]

theorem schemeLen_none (c : Char) (cs : Txt) (h1 : c ≠ 'h') (h2 : c ≠ 'w') :
    schemeLen (c :: cs) = none := by
  unfold schemeLen
  rw [show str "https://" = 'h' :: str "ttps://" from rfl, isPrefixOf_head_ne _ _ _ _ h1]
  rw [show str "http://" = 'h' :: str "ttp://" from rfl, isPrefixOf_head_ne _ _ _ _ h1]
  rw [show str "www." = 'w' :: str "ww." from rfl, isPrefixOf_head_ne _ _ _ _ h2]
  rfl

theorem urlSubF_id (fuel : Nat) (l : Txt) (h : ∀ c ∈ l, c ≠ 'h' ∧ c ≠ 'w') :
    urlSubF fuel l = l := by
  induction fuel generalizing l with
  | zero => rfl
  | succ fuel ih =>
    cases l with
    | nil => rfl
    | cons c cs =>
      obtain ⟨h1, h2⟩ := h c (List.mem_cons_self _ _)
      simp only [urlSubF]
      rw [schemeLen_none c cs h1 h2]
      rw [ih cs (fun x hx => h x (List.mem_cons_of_mem _ hx))]

theorem wsSkip_allWS (l : Txt) (h : ∀ c ∈ l, pyWS c = true) : wsSkip l = [] := by
  induction l with
  | nil => rfl
  | cons c cs ih =>
    simp only [wsSkip, h c (List.mem_cons_self _ _), if_true]
    exact ih (fun x hx => h x (List.mem_cons_of_mem _ hx))

theorem wsSub_allWS (l : Txt) (h : ∀ c ∈ l, pyWS c = true) (hne : l ≠ []) :
    wsSub l = [' '] := by
  cases l with
  | nil => exact absurd rfl hne
  | cons c cs =>
    simp only [wsSub, h c (List.mem_cons_self _ _), if_true]
    rw [wsSkip_allWS cs (fun x hx => h x (List.mem_cons_of_mem _ hx))]

theorem pyWS_ne_chars {c : Char} (h : pyWS c = true) :
    c ≠ '<' ∧ c ≠ '[' ∧ c ≠ '@' ∧ c ≠ '`' ∧ c ≠ 'h' ∧ c ≠ 'w' := by
  simp only [pyWS, Bool.or_eq_true, decide_eq_true_eq] at h
  rcases h with h | h | h | h | h | h <;> subst h <;> refine ⟨?_, ?_, ?_, ?_, ?_, ?_⟩ <;> decide

/-- C9 amended: the normalizer collapses every whitespace run — including
newlines and blank lines — to a single space: in the output every
whitespace character is a space, no two adjacent characters are both
whitespace, and no newline survives at all (so a blank line is never
retained; the blank-line-collapsing step operates on text that no longer
has newlines); empty or entirely-whitespace input yields the empty
string. -/
theorem c9_whitespace_normalization :
    (∀ (t : Txt) (d : Bool),
      (∀ c ∈ cleanText t d, pyWS c = true → c = ' ') ∧
      List.Chain' (fun a b => ¬(pyWS a = true ∧ pyWS b = true)) (cleanText t d) ∧
      '\n' ∉ cleanText t d) ∧
    (∀ (t : Txt) (d : Bool), (∀ c ∈ t, pyWS c = true) → cleanText t d = []) := by
  refine ⟨cleanText_ws_props, ?_⟩
  intro t d hws
  unfold cleanText
  by_cases ht : t = []
  · rw [if_pos ht]
  · rw [if_neg ht]
    dsimp only
    have hchars := fun c hc => pyWS_ne_chars (hws c hc)
    have hst : stripTags t = t :=
      stripTags_id t (fun hm => (hchars _ hm).1 rfl)
    have hqm : (if d then codeBlockSub (mentionSub (quoteSub (stripTags t)))
        else stripTags t) = t := by
      cases d with
      | false => simpa using hst
      | true =>
          simp only [if_true]
          rw [hst]
          unfold quoteSub
          rw [quoteSubF_id _ _ t (fun hm => (hchars _ hm).2.1 rfl)]
          unfold mentionSub
          rw [mentionAux_id t (fun hm => (hchars _ hm).2.2.1 rfl)]
          unfold codeBlockSub
          rw [codeBlockSubF_id _ t (fun hm => (hchars _ hm).2.2.2.1 rfl)]
    rw [hqm]
    unfold urlSub
    rw [urlSubF_id _ t (fun c hc => ⟨(hchars c hc).2.2.2.2.1, (hchars c hc).2.2.2.2.2⟩)]
    rw [wsSub_allWS t hws ht]
    rfl

/-- C9 counterexample: a blank-line run in the input does not survive as a
blank line — the whole run collapses to a single space, so the output of
`clean_text` on `"a\n\n\nb"` is `"a b"`, not `"a\n\nb"`. -/
theorem c9_counterexample :
    cleanText (str "a\n\n\nb") false = str "a b" ∧
    '\n' ∉ cleanText (str "a\n\n\nb") false ∧
    cleanText (str "a\n\n\nb") false ≠ str "a\n\nb" := by decide

theorem c9_whitespace_normalization_witness :
    ((∀ c ∈ cleanText (str " x  \n y ") false, pyWS c = true → c = ' ') ∧
      List.Chain' (fun a b => ¬(pyWS a = true ∧ pyWS b = true))
        (cleanText (str " x  \n y ") false) ∧
      '\n' ∉ cleanText (str " x  \n y ") false) ∧
    cleanText (str " \n \t ") true = [] :=
  ⟨c9_whitespace_normalization.1 (str " x  \n y ") false,
   c9_whitespace_normalization.2 (str " \n \t ") true (by decide)⟩

theorem sumLen_append (a b : List Txt) : sumLen (a ++ b) = sumLen a + sumLen b := by
  simp [sumLen]

theorem sumLen_join (l : List Txt) : l.join.length = sumLen l := by
  simp [sumLen, List.length_join]

theorem join_eq_nil_sumLen (l : List Txt) (h : l.join = []) : sumLen l = 0 := by
  have hlen := congrArg List.length h
  rw [sumLen_join] at hlen
  simpa using hlen

/-- What `popWhile` keeps is a suffix of the pending chunk. -/
theorem popWhile_sfx (size ov ulen : Nat) (acc : List Txt) :
    popWhile size ov ulen acc <:+ acc := by
  induction acc with
  | nil => exact ⟨[], rfl⟩
  | cons u rest ih =>
    unfold popWhile
    by_cases hc : ov < sumLen (u :: rest) ∨
        (size < sumLen (u :: rest) + ulen ∧ 0 < sumLen (u :: rest))
    · rw [if_pos hc]
      obtain ⟨pre, hpre⟩ := ih
      exact ⟨u :: pre, by rw [List.cons_append, hpre]⟩
    · rw [if_neg hc]

/-- The overlap carried between chunks never exceeds the configured
`chunk_overlap`. -/
theorem popWhile_le_ov (size ov ulen : Nat) (acc : List Txt) :
    sumLen (popWhile size ov ulen acc) ≤ ov := by
  induction acc with
  | nil => simp [popWhile, sumLen]
  | cons u rest ih =>
    unfold popWhile
    by_cases hc : ov < sumLen (u :: rest) ∨
        (size < sumLen (u :: rest) + ulen ∧ 0 < sumLen (u :: rest))
    · rw [if_pos hc]
      exact ih
    · rw [if_neg hc]
      push_neg at hc
      omega

/-- The kept overlap leaves room for the incoming unit within the size
budget (or is empty). -/
theorem popWhile_fit (size ov ulen : Nat) (acc : List Txt) :
    sumLen (popWhile size ov ulen acc) + ulen ≤ size ∨
      sumLen (popWhile size ov ulen acc) = 0 := by
  induction acc with
  | nil =>
    right
    simp [popWhile, sumLen]
  | cons u rest ih =>
    unfold popWhile
    by_cases hc : ov < sumLen (u :: rest) ∨
        (size < sumLen (u :: rest) + ulen ∧ 0 < sumLen (u :: rest))
    · rw [if_pos hc]
      exact ih
    · rw [if_neg hc]
      push_neg at hc
      rcases Nat.lt_or_ge size (sumLen (u :: rest) + ulen) with h | h
      · right
        have := hc.2 h
        omega
      · left
        omega

theorem popWhile_of_sumLen_zero (size ov ulen : Nat) (acc : List Txt)
    (h : sumLen acc = 0) : popWhile size ov ulen acc = acc := by
  cases acc with
  | nil => rfl
  | cons u rest =>
    unfold popWhile
    rw [if_neg]
    intro hc
    rcases hc with hc | hc
    · omega
    · omega

/-- Every chunk the merge phase emits fits the size budget, provided all
units do and the pending chunk does. -/
theorem mergeAux_chunk_le (size overlap : Nat) (us : List Txt) :
    ∀ acc, (∀ u ∈ us, u.length ≤ size) → sumLen acc ≤ size →
      ∀ ch ∈ mergeAux size overlap us acc, sumLen ch ≤ size := by
  induction us with
  | nil =>
    intro acc _ hacc ch hch
    unfold mergeAux at hch
    by_cases hj : acc.join = []
    · rw [if_pos hj] at hch
      simp at hch
    · rw [if_neg hj] at hch
      rw [List.mem_singleton] at hch
      subst hch
      exact hacc
  | cons u rest ih =>
    intro acc hus hacc ch hch
    have hu : u.length ≤ size := hus u (List.mem_cons_self _ _)
    have hrest : ∀ x ∈ rest, x.length ≤ size := fun x hx => hus x (List.mem_cons_of_mem _ hx)
    unfold mergeAux at hch
    by_cases hcond : size < sumLen acc + u.length ∧ acc ≠ []
    · rw [if_pos hcond] at hch
      dsimp only at hch
      have hacc' : sumLen (popWhile size overlap u.length acc ++ [u]) ≤ size := by
        rcases popWhile_fit size overlap u.length acc with h | h
        · rw [sumLen_append]
          simp only [sumLen, List.map_cons, List.map_nil, List.sum_cons, List.sum_nil] at h ⊢
          omega
        · rw [sumLen_append, h]
          simp only [sumLen, List.map_cons, List.map_nil, List.sum_cons, List.sum_nil]
          omega
      by_cases hj : acc.join = []
      · rw [if_pos hj] at hch
        exact ih _ hrest hacc' ch hch
      · rw [if_neg hj] at hch
        rcases List.mem_cons.mp hch with rfl | hch'
        · exact hacc
        · exact ih _ hrest hacc' ch hch'
    · rw [if_neg hcond] at hch
      have h2 : sumLen (acc ++ [u]) ≤ size := by
        rw [sumLen_append]
        by_cases hae : acc = []
        · subst hae
          simp only [sumLen, List.map_cons, List.map_nil, List.sum_cons, List.sum_nil,
            List.map_nil, List.sum_nil]
          omega
        · have hlt : ¬ size < sumLen acc + u.length := fun hlt => hcond ⟨hlt, hae⟩
          simp only [sumLen, List.map_cons, List.map_nil, List.sum_cons, List.sum_nil]
          simp only [sumLen] at hlt
          omega
      exact ih _ hrest h2 ch hch

/-- With the character-level separator as fallback, every unit fits the
size budget. -/
theorem units_nil_sep_le (size : Nat) (hs : 1 ≤ size) (rest : List Txt) (t : Txt) :
    ∀ u ∈ units size ([] :: rest) t, u.length ≤ size := by
  intro u hu
  unfold units at hu
  dsimp only at hu
  rw [List.mem_join] at hu
  obtain ⟨l, hl, hul⟩ := hu
  rw [List.mem_map] at hl
  obtain ⟨p, hp, rfl⟩ := hl
  rw [List.mem_map] at hp
  obtain ⟨c, hc, rfl⟩ := hp
  rw [if_pos (by simpa using hs)] at hul
  rw [List.mem_singleton] at hul
  subst hul
  simpa using hs

theorem units_cons_le (size : Nat) (sep : Txt) (rest : List Txt)
    (hr : ∀ p, ∀ u ∈ units size rest p, u.length ≤ size) (t : Txt) :
    ∀ u ∈ units size (sep :: rest) t, u.length ≤ size := by
  intro u hu
  unfold units at hu
  dsimp only at hu
  rw [List.mem_join] at hu
  obtain ⟨l, hl, hul⟩ := hu
  rw [List.mem_map] at hl
  obtain ⟨p, hp, rfl⟩ := hl
  by_cases hlen : p.length ≤ size
  · rw [if_pos hlen] at hul
    rw [List.mem_singleton] at hul
    subst hul
    exact hlen
  · rw [if_neg hlen] at hul
    exact hr p u hul

theorem units_default_le (t : Txt) : ∀ u ∈ units 1200 defaultSeps t, u.length ≤ 1200 := by
  have h3 : ∀ p, ∀ u ∈ units 1200 [([] : Txt)] p, u.length ≤ 1200 :=
    fun p => units_nil_sep_le 1200 (by omega) [] p
  have h2 : ∀ p, ∀ u ∈ units 1200 [str " ", []] p, u.length ≤ 1200 :=
    fun p => units_cons_le 1200 (str " ") [[]] h3 p
  have h1 : ∀ p, ∀ u ∈ units 1200 [str "\n", str " ", []] p, u.length ≤ 1200 :=
    fun p => units_cons_le 1200 (str "\n") [str " ", []] h2 p
  exact units_cons_le 1200 (str "\n\n") [str "\n", str " ", []] h1 t

/-- Consecutive chunks of the merge phase are related by overlap carry: the
later chunk starts with exactly what `popWhile` kept of the earlier one. -/
theorem mergeAux_chain (size ov : Nat) (us : List Txt) :
    ∀ acc, List.Chain' (fun a b => ∃ ulen post, b = popWhile size ov ulen a ++ post)
        (mergeAux size ov us acc) ∧
      (∀ h, (mergeAux size ov us acc).head? = some h → ∃ post, h = acc ++ post) := by
  induction us with
  | nil =>
    intro acc
    unfold mergeAux
    by_cases hj : acc.join = []
    · rw [if_pos hj]
      exact ⟨List.chain'_nil, fun h hh => by simp at hh⟩
    · rw [if_neg hj]
      refine ⟨List.chain'_singleton _, ?_⟩
      intro h hh
      simp only [List.head?_cons, Option.some.injEq] at hh
      exact ⟨[], by rw [← hh, List.append_nil]⟩
  | cons u rest ih =>
    intro acc
    unfold mergeAux
    by_cases hcond : size < sumLen acc + u.length ∧ acc ≠ []
    · rw [if_pos hcond]
      dsimp only
      by_cases hj : acc.join = []
      · rw [if_pos hj]
        obtain ⟨ihc, ihh⟩ := ih (popWhile size ov u.length acc ++ [u])
        refine ⟨ihc, ?_⟩
        intro h hh
        obtain ⟨post, hpost⟩ := ihh h hh
        have hz : sumLen acc = 0 := join_eq_nil_sumLen acc hj
        rw [popWhile_of_sumLen_zero _ _ _ _ hz] at hpost
        exact ⟨[u] ++ post, by rw [hpost, List.append_assoc]⟩
      · rw [if_neg hj]
        obtain ⟨ihc, ihh⟩ := ih (popWhile size ov u.length acc ++ [u])
        refine ⟨?_, ?_⟩
        · rw [List.chain'_cons']
          refine ⟨?_, ihc⟩
          intro b hb
          obtain ⟨post, hpost⟩ := ihh b (Option.mem_def.mp hb)
          exact ⟨u.length, [u] ++ post, by rw [hpost, List.append_assoc]⟩
        · intro h hh
          simp only [List.head?_cons, Option.some.injEq] at hh
          exact ⟨[], by rw [← hh, List.append_nil]⟩
    · rw [if_neg hcond]
      obtain ⟨ihc, ihh⟩ := ih (acc ++ [u])
      refine ⟨ihc, ?_⟩
      intro h hh
      obtain ⟨post, hpost⟩ := ihh h hh
      exact ⟨[u] ++ post, by rw [hpost, List.append_assoc]⟩

/-- C7 amended (spec-modelled splitter): every chunk the size-split phase
produces is at most 1200 characters — the final character-level separator
means even an indivisible over-long token is split, so no exception is
needed — and adjacent chunks from the same segment overlap by *at most*
200 characters, not exactly 200: each chunk starts with the unit suffix
`popWhile` kept of the previous chunk, and that carried overlap is a
suffix of the previous chunk totalling at most the configured
`chunk_overlap` of 200 characters (possibly zero). -/
theorem c7_chunking :
    (∀ t, ∀ c ∈ splitText t, c.length ≤ 1200) ∧
    (∀ t, List.Chain' (fun a b => ∃ ulen post, b = popWhile 1200 200 ulen a ++ post)
      (chunkUnits t)) ∧
    (∀ (size ulen : Nat) (acc : List Txt),
      popWhile size 200 ulen acc <:+ acc ∧ sumLen (popWhile size 200 ulen acc) ≤ 200) := by
  refine ⟨?_, ?_, ?_⟩
  · intro t c hc
    unfold splitText at hc
    rw [List.mem_map] at hc
    obtain ⟨ch, hch, rfl⟩ := hc
    rw [sumLen_join]
    exact mergeAux_chunk_le 1200 200 (units 1200 defaultSeps t) []
      (units_default_le t) (by simp [sumLen]) ch hch
  · intro t
    exact (mergeAux_chain 1200 200 (units 1200 defaultSeps t) []).1
  · intro size ulen acc
    exact ⟨popWhile_sfx _ _ _ _, popWhile_le_ov _ _ _ _⟩

set_option maxRecDepth 2000 in
theorem c7_chunking_witness :
    (str "hello world, a small sample text.").length ≤ 1200 ∧
    (popWhile 1200 200 3 [str "abcd"] <:+ [str "abcd"] ∧
      sumLen (popWhile 1200 200 3 [str "abcd"]) ≤ 200) :=
  ⟨c7_chunking.1 (str "hello world, a small sample text.")
      (str "hello world, a small sample text.") (by decide),
   c7_chunking.2.2 1200 3 [str "abcd"]⟩

/-- The concrete input of the C7 counterexample: two 700-character
paragraphs separated by a blank line. -/
def c7text : Txt := List.replicate 700 'a' ++ str "\n\n" ++ List.replicate 700 'b'

set_option maxRecDepth 6500 in
/-- C7 counterexample: adjacent chunks need not overlap by 200 characters —
the configured `chunk_overlap=200` is only an upper bound. Splitting two
700-character paragraphs yields two chunks with *no* shared text: the last
200 characters of the first chunk differ from the first 200 of the
second. -/
theorem c7_counterexample :
    splitText c7text =
      [List.replicate 700 'a' ++ str "\n\n", List.replicate 700 'b'] ∧
    ¬ ((List.replicate 700 'a' ++ str "\n\n").drop
        ((List.replicate 700 'a' ++ str "\n\n").length - 200) =
      (List.replicate (700 : Nat) 'b').take 200) := by
  constructor
  · decide
  · decide

/-- C1 counterexample: on the course path the `doc_id` is the hash of the
chunk text *before* cleaning, while the stored `page_content` is the
*cleaned* chunk text — so `doc_id` is not the hash of the chunk's final
`page_content` (hash modelled by the identity function): the input
`"a  b"` yields a chunk whose `page_content` is `"a b"` but whose
`doc_id` is `"a  b"`. -/
theorem c1_counterexample :
    ∃ d ∈ processCourseContent (fun t => t) [(str "a  b", [])],
      mget d.metadata "doc_id" ≠ some (.str ((fun t : Txt => t) d.page_content)) :=
  ⟨⟨str "a b", [("doc_id", .str (str "a  b"))]⟩, by decide, by decide⟩

/-- C1 amended: every chunk's `doc_id` is indeed derived solely from text,
never from position, but it is the hash of the *pre-`page_content`* text:
on the forum path it hashes the full cleaned post content (shared by all
chunks split from that post), and on the course path it hashes the raw
chunk text before cleaning, while `page_content` stores the cleaned
text. -/
theorem c1_doc_id_provenance :
    (∀ (hash : Txt → Txt) (posts : List Metadata) (docs : List Document),
      processDiscoursePosts hash posts = .ok docs →
      ∀ d ∈ docs, ∃ p ∈ posts, ∃ c, postCleanContent p = .ok c ∧
        d.page_content ∈ splitText c ∧
        mget d.metadata "doc_id" = some (.str (hash c))) ∧
    (∀ (hash : Txt → Txt) (docs : List (Txt × Metadata)),
      ∀ d ∈ processCourseContent hash docs, ∃ chunk,
        d.page_content = cleanText chunk false ∧
        mget d.metadata "doc_id" = some (.str (hash chunk))) := by
  constructor
  · intro hash posts docs h d hd
    obtain ⟨p, hp, c, hc, hpc, hmd⟩ := processDiscoursePosts_mem hash posts docs h d hd
    exact ⟨p, hp, c, hc, hpc, by rw [hmd]; exact mget_postMeta_doc_id hash p c⟩
  · intro hash docs d hd
    unfold processCourseContent at hd
    rw [List.mem_join] at hd
    obtain ⟨l, hl, hdl⟩ := hd
    rw [List.mem_map] at hl
    obtain ⟨dm, hdm, rfl⟩ := hl
    rw [List.mem_join] at hdl
    obtain ⟨l2, hl2, hdl2⟩ := hdl
    rw [List.mem_map] at hl2
    obtain ⟨seg, hseg, rfl⟩ := hl2
    rw [List.mem_map] at hdl2
    obtain ⟨chunk, hchunk, rfl⟩ := hdl2
    refine ⟨chunk, rfl, ?_⟩
    have hm : mmerge (mmerge dm.2 seg.2) [("doc_id", .str (hash chunk))] =
        mset (mmerge dm.2 seg.2) "doc_id" (.str (hash chunk)) := rfl
    show mget (mmerge (mmerge dm.2 seg.2) [("doc_id", .str (hash chunk))]) "doc_id" = _
    rw [hm]
    exact mget_mset_self _ _ _

/-- A concrete forum post for the C1 witness. -/
def c1post : Metadata :=
  [("content", .str (str "Use pandas for this small task today, friends.")),
   ("is_reply", .bool false)]

/-- The single document produced from `c1post` (hash modelled by the
identity function). -/
def c1forumDoc : Document :=
  ⟨str "Use pandas for this small task today, friends.",
   postMeta (fun t => t) c1post (str "Use pandas for this small task today, friends.")⟩

theorem c1_doc_id_provenance_witness :
    (∃ p ∈ [c1post], ∃ c, postCleanContent p = .ok c ∧
      c1forumDoc.page_content ∈ splitText c ∧
      mget c1forumDoc.metadata "doc_id" = some (.str ((fun t : Txt => t) c))) ∧
    (∃ chunk, (Document.mk (str "a b") [("doc_id", .str (str "a  b"))]).page_content =
        cleanText chunk false ∧
      mget (Document.mk (str "a b") [("doc_id", .str (str "a  b"))]).metadata "doc_id" =
        some (.str ((fun t : Txt => t) chunk))) :=
  ⟨c1_doc_id_provenance.1 (fun t => t) [c1post] [c1forumDoc] (by decide)
      c1forumDoc (by decide),
   c1_doc_id_provenance.2 (fun t => t) [(str "a  b", [])]
      ⟨str "a b", [("doc_id", .str (str "a  b"))]⟩ (by decide)⟩

end TDS
